import Mathlib

/-!
# Verification of the grid search engine (src/app/algorithms.ts)

Shallow embedding of the pathfinding engine: five traversal strategies
(`bfs`, `dfs`, `dijkstra`, `aStar`, `greedyBestFirst`) over a 2D obstacle
grid, together with the shared helpers `getNeighbors` and `findStartAndEnd`.

Modelling conventions:
* JS `Position` objects become the `Pos` structure with `Int` coordinates
  (the source computes `row - 1` freely, so coordinates must be integers).
* The string keys `` `${row},${col}` `` used in the source for `Set`/`Map`
  membership are a stand-in for the position value itself (the spec notes the
  key is only ever used for identity); we use `Pos` directly as the key.
* JS `Map`s become functions `Pos → Option _`; JS `Set`s used purely for
  membership become `Finset Pos`; the insertion-ordered sets/arrays that the
  algorithms iterate over (`openSet` in A* and Greedy, the BFS queue, the DFS
  stack) become `List Pos` with the source's push/pop/delete discipline.
* `Infinity`-valued scores become `Option Nat` with `none` = Infinity;
  `ltInf`/`geInf` reproduce the JS comparisons on these values.
* The source's `while` loops are not structurally recursive (and one of them
  really can run forever), so every loop takes a fuel argument and returns
  `Option`: `none` means the loop did not finish within the given fuel.
  The top-level wrappers pass fuel that provably suffices for the loops that
  do terminate.
* The engine never writes to the grid; to state the frame property we thread
  the grid through every loop state and return it alongside the result, so
  each strategy has type `Grid → Option (AlgorithmResult × Grid)`.
-/

/-- `CellType` from src/app/types.ts. -/
inductive CellType where
  | empty
  | start
  | «end»
  | wall
  | path
  | visited
deriving DecidableEq, Repr

/-- `Cell` from src/app/types.ts.  The engine only ever reads `type`. -/
structure Cell where
  type : CellType
  row : Int
  col : Int
deriving DecidableEq, Repr

/-- The grid: a sequence of rows of cells (`Cell[][]`). -/
abbrev Grid := List (List Cell)

/-- `Position` from src/app/algorithms.ts. -/
structure Pos where
  row : Int
  col : Int
deriving DecidableEq, Repr

/-- `AlgorithmResult` from src/app/algorithms.ts. -/
structure AlgorithmResult where
  path : List Pos
  visited : List Pos
  success : Bool
deriving DecidableEq, Repr

/-- `grid.length`. -/
def gridRows (grid : Grid) : Nat := grid.length

/-- `grid[0].length` (0 when the grid has no rows; the source would throw). -/
def gridCols (grid : Grid) : Nat :=
  match grid with
  | [] => 0
  | row :: _ => row.length

/-- Look up the type of the cell at `p`, if `p` is inside the grid. -/
def cellTypeAt (grid : Grid) (p : Pos) : Option CellType :=
  if p.row < 0 ∨ p.col < 0 then none
  else (grid.get? p.row.toNat).bind fun row => (row.get? p.col.toNat).map Cell.type

/-- A looked-up cell is passable when it exists and is not a wall (the source
reads `grid[r][c].type !== 'wall'`; a missing cell would crash there, which
the rectangularity precondition rules out). -/
def passable (o : Option CellType) : Bool :=
  match o with
  | some t => t ≠ CellType.wall
  | none => false

/-- The four direction offsets, in source order: up, down, left, right. -/
def directions : List Pos := [⟨-1, 0⟩, ⟨1, 0⟩, ⟨0, -1⟩, ⟨0, 1⟩]

/-- `getNeighbors` from src/app/algorithms.ts: the in-bounds, non-wall
4-neighbors of `position`, in up/down/left/right order.  The column bound is
`grid[0].length`, as in the source. -/
def getNeighbors (grid : Grid) (position : Pos) : List Pos :=
  directions.filterMap fun dir =>
    let newRow := position.row + dir.row
    let newCol := position.col + dir.col
    if 0 ≤ newRow ∧ newRow < (gridRows grid : Int) ∧
        0 ≤ newCol ∧ newCol < (gridCols grid : Int) ∧
        passable (cellTypeAt grid ⟨newRow, newCol⟩) = true
    then some ⟨newRow, newCol⟩ else none

/-- `findStartAndEnd` from src/app/algorithms.ts: row-major scan keeping the
last `start`-typed and last `end`-typed cell seen. -/
def findStartAndEnd (grid : Grid) : Option Pos × Option Pos :=
  grid.enum.foldl
    (fun acc rowPair =>
      rowPair.2.enum.foldl
        (fun acc cellPair =>
          if cellPair.2.type = CellType.start then
            (some ⟨rowPair.1, cellPair.1⟩, acc.2)
          else if cellPair.2.type = CellType.«end» then
            (acc.1, some ⟨rowPair.1, cellPair.1⟩)
          else acc)
        acc)
    (none, none)

/-- Update one key of a map-as-function. -/
def fupdate {α : Type} (m : Pos → Option α) (k : Pos) (v : α) : Pos → Option α :=
  fun p => if p = k then some v else m p

/-- Update one key of a distance map with a possibly-infinite value. -/
def fset (m : Pos → Option Nat) (k : Pos) (v : Option Nat) : Pos → Option Nat :=
  fun p => if p = k then v else m p

/-- JS `a < b` on distances where `none` plays `Infinity`. -/
def ltInf : Option Nat → Option Nat → Bool
  | some a, some b => a < b
  | some _, none => true
  | none, _ => false

/-- JS `a >= b` on distances where `none` plays `Infinity` (no NaN involved,
so `a >= b` is exactly `¬ (a < b)`). -/
def geInf (a b : Option Nat) : Bool := !ltInf a b

/-- JS `x + 1` where `x` may be `Infinity`. -/
def addOne (a : Option Nat) : Option Nat := a.map (· + 1)

/-- JS `x + h` where `x` may be `Infinity` and `h` is finite. -/
def addFin (a : Option Nat) (h : Nat) : Option Nat := a.map (· + h)

/-- Total number of cells in the grid (used to size the loop fuel). -/
def cellCount (grid : Grid) : Nat := (grid.map List.length).sum

/-- The shared path-reconstruction loop: walk the parent map backwards from
`current` until reaching `start`, building the path back-to-front (the source
`unshift`s).  `none` when the fuel runs out (the source would loop forever)
or when a parent link is missing (the source would crash on `undefined`). -/
def reconstructPath (parent : Pos → Option Pos) (start : Pos) :
    Nat → Pos → Option (List Pos)
  | 0, _ => none
  | fuel + 1, current =>
    if current = start then some [start]
    else
      match parent current with
      | none => none
      | some p => (reconstructPath parent start fuel p).map (· ++ [current])

/-! ## BFS -/

/-- Loop state of `bfs`: the queue, the `visited` key set, the `parent` map
and the `visitedPositions` trace, plus the (read-only) grid. -/
structure BfsState where
  grid : Grid
  queue : List Pos
  visited : Finset Pos
  parent : Pos → Option Pos
  visitedPositions : List Pos

/-- Inner `for`-loop of `bfs`: examine the neighbors of `current`, marking,
recording the parent and enqueueing each one not yet seen. -/
def bfsEnqueue (s : BfsState) (current : Pos) : BfsState :=
  (getNeighbors s.grid current).foldl
    (fun s neighbor =>
      if neighbor ∈ s.visited then s
      else
        { s with
          visited := insert neighbor s.visited
          parent := fupdate s.parent neighbor current
          queue := s.queue ++ [neighbor] })
    s

/-- The `while` loop of `bfs`. -/
def bfsLoop (startP endP : Pos) (rfuel : Nat) :
    Nat → BfsState → Option (AlgorithmResult × Grid)
  | 0, _ => none
  | fuel + 1, s =>
    match s.queue with
    | [] => some ({ path := [], visited := s.visitedPositions, success := false }, s.grid)
    | current :: rest =>
      let s1 : BfsState :=
        { s with queue := rest, visitedPositions := s.visitedPositions ++ [current] }
      if current = endP then
        match reconstructPath s1.parent startP rfuel endP with
        | none => none
        | some path =>
          some ({ path := path, visited := s1.visitedPositions, success := true }, s1.grid)
      else
        bfsLoop startP endP rfuel fuel (bfsEnqueue s1 current)

/-- `bfs` from src/app/algorithms.ts. -/
def bfs (grid : Grid) : Option (AlgorithmResult × Grid) :=
  match findStartAndEnd grid with
  | (some s, some e) =>
    bfsLoop s e (cellCount grid + 1) (cellCount grid + 1)
      { grid := grid, queue := [s], visited := {s},
        parent := fun _ => none, visitedPositions := [] }
  | _ => some ({ path := [], visited := [], success := false }, grid)

/-! ## DFS -/

/-- Loop state of `dfs`.  The JS array used as a stack pushes and pops at its
tail; we keep the list with the most recently pushed element at the head. -/
structure DfsState where
  grid : Grid
  stack : List Pos
  visited : Finset Pos
  parent : Pos → Option Pos
  visitedPositions : List Pos

/-- Inner `for`-loop of `dfs`: push unseen neighbors (up/down/left/right
order, so the last pushed — popped first — is `right`). -/
def dfsPush (s : DfsState) (current : Pos) : DfsState :=
  (getNeighbors s.grid current).foldl
    (fun s neighbor =>
      if neighbor ∈ s.visited then s
      else
        { s with
          visited := insert neighbor s.visited
          parent := fupdate s.parent neighbor current
          stack := neighbor :: s.stack })
    s

/-- The `while` loop of `dfs`. -/
def dfsLoop (startP endP : Pos) (rfuel : Nat) :
    Nat → DfsState → Option (AlgorithmResult × Grid)
  | 0, _ => none
  | fuel + 1, s =>
    match s.stack with
    | [] => some ({ path := [], visited := s.visitedPositions, success := false }, s.grid)
    | current :: rest =>
      let s1 : DfsState :=
        { s with stack := rest, visitedPositions := s.visitedPositions ++ [current] }
      if current = endP then
        match reconstructPath s1.parent startP rfuel endP with
        | none => none
        | some path =>
          some ({ path := path, visited := s1.visitedPositions, success := true }, s1.grid)
      else
        dfsLoop startP endP rfuel fuel (dfsPush s1 current)

/-- `dfs` from src/app/algorithms.ts. -/
def dfs (grid : Grid) : Option (AlgorithmResult × Grid) :=
  match findStartAndEnd grid with
  | (some s, some e) =>
    dfsLoop s e (cellCount grid + 1) (cellCount grid + 1)
      { grid := grid, stack := [s], visited := {s},
        parent := fun _ => none, visitedPositions := [] }
  | _ => some ({ path := [], visited := [], success := false }, grid)

/-! ## Dijkstra -/

/-- Loop state of `dijkstra`. -/
structure DijkstraState where
  grid : Grid
  distances : Pos → Option Nat
  parent : Pos → Option Pos
  visited : Finset Pos
  visitedPositions : List Pos

/-- Row-major list of all in-grid positions (`for row; for col` over
`grid[row].length`, as `findStartAndEnd` and the distance init do). -/
def rowMajorPositions (grid : Grid) : List Pos :=
  grid.enum.flatMap fun rp =>
    (List.range rp.2.length).map fun (c : Nat) => (⟨(rp.1 : Int), (c : Int)⟩ : Pos)

/-- `getMinDistance` inside `dijkstra`: full row-major scan for the unvisited
cell with the smallest finite distance (`null`/`none` when there is none). -/
def getMinDistance (s : DijkstraState) : Option Pos :=
  (rowMajorPositions s.grid).foldl
    (fun acc p =>
      if p ∉ s.visited ∧ ltInf (s.distances p) acc.1 = true
      then (s.distances p, some p) else acc)
    ((none : Option Nat), (none : Option Pos))
  |>.2

/-- Inner relaxation loop of `dijkstra`. -/
def dijkstraRelax (s : DijkstraState) (current : Pos) : DijkstraState :=
  (getNeighbors s.grid current).foldl
    (fun s neighbor =>
      if neighbor ∈ s.visited then s
      else
        let newDist := addOne (s.distances current)
        if ltInf newDist (s.distances neighbor) then
          { s with
            distances := fset s.distances neighbor newDist
            parent := fupdate s.parent neighbor current }
        else s)
    s

/-- The `while (true)` loop of `dijkstra`. -/
def dijkstraLoop (startP endP : Pos) (rfuel : Nat) :
    Nat → DijkstraState → Option (AlgorithmResult × Grid)
  | 0, _ => none
  | fuel + 1, s =>
    match getMinDistance s with
    | none => some ({ path := [], visited := s.visitedPositions, success := false }, s.grid)
    | some current =>
      let s1 : DijkstraState :=
        { s with visited := insert current s.visited
                 visitedPositions := s.visitedPositions ++ [current] }
      if current = endP then
        match reconstructPath s1.parent startP rfuel endP with
        | none => none
        | some path =>
          some ({ path := path, visited := s1.visitedPositions, success := true }, s1.grid)
      else
        dijkstraLoop startP endP rfuel fuel (dijkstraRelax s1 current)

/-- `dijkstra` from src/app/algorithms.ts.  The source initialises every
in-grid key to `Infinity` and then the start key to `0`; since only in-grid
keys are ever looked up, this is the function sending the start to `some 0`
and everything else to `none`. -/
def dijkstra (grid : Grid) : Option (AlgorithmResult × Grid) :=
  match findStartAndEnd grid with
  | (some s, some e) =>
    dijkstraLoop s e (cellCount grid + 1) (cellCount grid + 1)
      { grid := grid
        distances := fun p => if p = s then some 0 else none
        parent := fun _ => none
        visited := ∅
        visitedPositions := [] }
  | _ => some ({ path := [], visited := [], success := false }, grid)

/-! ## A* -/

/-- Manhattan-distance heuristic used by `aStar` (and by `greedyBestFirst`). -/
def heuristic (a b : Pos) : Nat := (a.row - b.row).natAbs + (a.col - b.col).natAbs

/-- Loop state of `aStar`.  `openSet` is a JS `Set` iterated in insertion
order, so it is kept as a duplicate-free list in insertion order. -/
structure AStarState where
  grid : Grid
  openSet : List Pos
  closedSet : Finset Pos
  gScore : Pos → Option Nat
  fScore : Pos → Option Nat
  parent : Pos → Option Pos
  visitedPositions : List Pos

/-- The scan for the open node with the lowest f-score: strict `<` against
the best so far, so the earliest-inserted minimum wins.  Returns `none` only
when every open node has `Infinity` f-score (then the source reads key `''`,
builds a NaN position and loops forever; we return `none` from the loop in
that — provably unreachable — case). -/
def lowestFScore (openSet : List Pos) (f : Pos → Option Nat) : Option Pos :=
  (openSet.foldl
    (fun acc k => if ltInf (f k) acc.1 = true then (f k, some k) else acc)
    ((none : Option Nat), (none : Option Pos))).2

/-- Inner neighbor-update loop of `aStar` (`endP` is the captured `end`). -/
def aStarUpdate (endP : Pos) (s : AStarState) (current : Pos) : AStarState :=
  (getNeighbors s.grid current).foldl
    (fun s neighbor =>
      if neighbor ∈ s.closedSet then s
      else
        let tentativeG := addOne (s.gScore current)
        if neighbor ∉ s.openSet then
          { s with
            openSet := s.openSet ++ [neighbor]
            parent := fupdate s.parent neighbor current
            gScore := fset s.gScore neighbor tentativeG
            fScore := fset s.fScore neighbor (addFin tentativeG (heuristic neighbor endP)) }
        else if geInf tentativeG (s.gScore neighbor) = true then s
        else
          { s with
            parent := fupdate s.parent neighbor current
            gScore := fset s.gScore neighbor tentativeG
            fScore := fset s.fScore neighbor (addFin tentativeG (heuristic neighbor endP)) })
    s

/-- The `while` loop of `aStar`.  Note the source checks `current == end`
and returns *before* it records `current` in `visitedPositions`, so the end
never enters the visited trace. -/
def aStarLoop (startP endP : Pos) (rfuel : Nat) :
    Nat → AStarState → Option (AlgorithmResult × Grid)
  | 0, _ => none
  | fuel + 1, s =>
    match s.openSet with
    | [] => some ({ path := [], visited := s.visitedPositions, success := false }, s.grid)
    | _ :: _ =>
      match lowestFScore s.openSet s.fScore with
      | none => none
      | some current =>
        if current = endP then
          match reconstructPath s.parent startP rfuel endP with
          | none => none
          | some path =>
            some ({ path := path, visited := s.visitedPositions, success := true }, s.grid)
        else
          let s1 : AStarState :=
            { s with openSet := s.openSet.erase current
                     closedSet := insert current s.closedSet
                     visitedPositions := s.visitedPositions ++ [current] }
          aStarLoop startP endP rfuel fuel (aStarUpdate endP s1 current)

/-- `aStar` from src/app/algorithms.ts.  As for `dijkstra`, the g/f score
maps start as `Infinity` everywhere except the start key. -/
def aStar (grid : Grid) : Option (AlgorithmResult × Grid) :=
  match findStartAndEnd grid with
  | (some s, some e) =>
    aStarLoop s e (cellCount grid + 1) (cellCount grid + 1)
      { grid := grid
        openSet := [s]
        closedSet := ∅
        gScore := fun p => if p = s then some 0 else none
        fScore := fun p => if p = s then some (heuristic s e) else none
        parent := fun _ => none
        visitedPositions := [] }
  | _ => some ({ path := [], visited := [], success := false }, grid)

/-! ## Greedy best-first -/

/-- Loop state of `greedyBestFirst`.  `openSet` is a JS array (push at the
tail, `splice` removes by index); `closedSet` only ever receives the start
position — the loop never adds to it. -/
structure GreedyState where
  grid : Grid
  openSet : List Pos
  closedSet : Finset Pos
  cameFrom : Pos → Option Pos
  visited : List Pos

/-- Index of the open position with the lowest heuristic (strict `<` scan
from index 0, so the earliest minimum wins). -/
def minHeuristicIndex (h : Pos → Nat) (l : List Pos) : Nat :=
  (l.enum.foldl
    (fun acc p => if h p.2 < acc.2 then (p.1, h p.2) else acc)
    (0, match l with | [] => 0 | x :: _ => h x)).1

/-- The raw candidate neighbors of `current` in `greedyBestFirst` (computed
inline in the source, not via `getNeighbors`). -/
def greedyCandidates (current : Pos) : List Pos :=
  [⟨current.row - 1, current.col⟩, ⟨current.row + 1, current.col⟩,
   ⟨current.row, current.col - 1⟩, ⟨current.row, current.col + 1⟩]

/-- Inner neighbor loop of `greedyBestFirst`: skip out-of-bounds, wall and
closed positions; push the rest unless already open, recording `cameFrom`.
Note positions already popped from the open set are *not* in the closed set
(only the start ever is), so they get re-pushed and their parent rewritten. -/
def greedyExpand (s : GreedyState) (current : Pos) : GreedyState :=
  (greedyCandidates current).foldl
    (fun s neighbor =>
      if neighbor.row < 0 ∨ (gridRows s.grid : Int) ≤ neighbor.row ∨
          neighbor.col < 0 ∨ (gridCols s.grid : Int) ≤ neighbor.col ∨
          passable (cellTypeAt s.grid neighbor) = false ∨
          neighbor ∈ s.closedSet then s
      else if neighbor ∈ s.openSet then s
      else
        { s with
          openSet := s.openSet ++ [neighbor]
          cameFrom := fupdate s.cameFrom neighbor current })
    s

/-- The `while` loop of `greedyBestFirst`.  The source pushes `current` onto
`visited` *before* removing it from the open set and checking for the end. -/
def greedyLoop (startP endP : Pos) (rfuel : Nat) :
    Nat → GreedyState → Option (AlgorithmResult × Grid)
  | 0, _ => none
  | fuel + 1, s =>
    match s.openSet with
    | [] => some ({ path := [], visited := s.visited, success := false }, s.grid)
    | _ :: _ =>
      let idx := minHeuristicIndex (fun p => heuristic p endP) s.openSet
      let current := s.openSet.getD idx ⟨0, 0⟩
      let s1 : GreedyState :=
        { s with visited := s.visited ++ [current], openSet := s.openSet.eraseIdx idx }
      if current = endP then
        match reconstructPath s1.cameFrom startP rfuel endP with
        | none => none
        | some path =>
          some ({ path := path, visited := s1.visited, success := true }, s1.grid)
      else
        greedyLoop startP endP rfuel fuel (greedyExpand s1 current)

/-- The inline start/end scan of `greedyBestFirst`: `for i < rows, j < cols`
with two independent `if`s (last occurrence wins for each), where `cols` is
`grid[0].length` for every row. -/
def greedyFindStartEnd (grid : Grid) : Option Pos × Option Pos :=
  (List.range (gridRows grid)).foldl
    (fun acc (i : Nat) =>
      (List.range (gridCols grid)).foldl
        (fun acc (j : Nat) =>
          let t := cellTypeAt grid ⟨(i : Int), (j : Int)⟩
          let acc1 :=
            if t = some CellType.start then (some (⟨(i : Int), (j : Int)⟩ : Pos), acc.2)
            else acc
          if t = some CellType.«end» then (acc1.1, some (⟨(i : Int), (j : Int)⟩ : Pos))
          else acc1)
        acc)
    (none, none)

/-- `greedyBestFirst` from src/app/algorithms.ts.  The source's loop is not
guaranteed to terminate (popped cells are never closed, so they can be
re-opened); the wrapper gives the loop `(cellCount + 1)^2` iterations of
fuel and reports `none` when they do not suffice. -/
def greedyBestFirst (grid : Grid) : Option (AlgorithmResult × Grid) :=
  match greedyFindStartEnd grid with
  | (some s, some e) =>
    greedyLoop s e (cellCount grid + 1) ((cellCount grid + 1) * (cellCount grid + 1))
      { grid := grid
        openSet := [s]
        closedSet := {s}
        cameFrom := fun _ => none
        visited := [] }
  | _ => some ({ path := [], visited := [], success := false }, grid)

/-! ## Specification-side notions

These definitions come from the spec's wording, not from the source: they
are what the claims quantify over and compare the engine against. -/

/-- Build a grid from a matrix of cell types, with each cell carrying its own
coordinates (as the UI's grid constructor does). -/
def mkGrid (rows : List (List CellType)) : Grid :=
  rows.enum.map fun rp => rp.2.enum.map fun cp => ⟨cp.2, rp.1, cp.1⟩

/-- Number of cells of a given type in the grid. -/
def typeCount (grid : Grid) (t : CellType) : Nat :=
  (grid.map fun row => (row.filter fun c => c.type = t).length).sum

/-- A well-formed grid: at least one row, at least one column, rectangular,
and at most one `start` and one `end` cell. -/
def wellFormed (grid : Grid) : Prop :=
  0 < grid.length ∧ 0 < gridCols grid ∧
    (∀ row ∈ grid, row.length = gridCols grid) ∧
    typeCount grid CellType.start ≤ 1 ∧ typeCount grid CellType.«end» ≤ 1

instance (grid : Grid) : Decidable (wellFormed grid) := by
  unfold wellFormed; infer_instance

/-- Some cell of the grid has the given type. -/
def hasCellOfType (grid : Grid) (t : CellType) : Prop :=
  ∃ row ∈ grid, ∃ c ∈ row, c.type = t

instance (grid : Grid) (t : CellType) : Decidable (hasCellOfType grid t) := by
  unfold hasCellOfType; infer_instance

/-- The cells of the grid in row-major order, each with the position its
indices give it. -/
def cellsRowMajor (grid : Grid) : List (Pos × CellType) :=
  grid.enum.flatMap fun rp =>
    rp.2.enum.map fun cp => ((⟨rp.1, cp.1⟩ : Pos), cp.2.type)

/-- The position of the last cell of type `t` in row-major order, if any:
the spec's contract for the start/end locator. -/
def lastOfType (grid : Grid) (t : CellType) : Option Pos :=
  (((cellsRowMajor grid).filter fun pc => pc.2 = t).getLast?).map (·.1)

/-- One step in a cardinal direction, as the spec phrases path validity. -/
def cardinalStep (a b : Pos) : Prop :=
  (b.row = a.row ∧ (b.col = a.col + 1 ∨ b.col = a.col - 1)) ∨
  (b.col = a.col ∧ (b.row = a.row + 1 ∨ b.row = a.row - 1))

instance (a b : Pos) : Decidable (cardinalStep a b) := by
  unfold cardinalStep; infer_instance

/-- The spec's notion of a valid returned path: starts at `s`, ends at `e`,
consecutive positions one cardinal step apart, no repeats, no walls. -/
def validPath (grid : Grid) (s e : Pos) (path : List Pos) : Prop :=
  path.head? = some s ∧ path.getLast? = some e ∧
    List.Chain' cardinalStep path ∧ path.Nodup ∧
    ∀ p ∈ path, cellTypeAt grid p ≠ some CellType.wall

instance (grid : Grid) (s e : Pos) (path : List Pos) :
    Decidable (validPath grid s e path) := by
  unfold validPath; infer_instance

/-- The generic "last wins" scan step shared by the two start/end locators,
acting on an already-enumerated list of positions and cell types. -/
def scanPairs (l : List (Pos × CellType)) (acc : Option Pos × Option Pos) :
    Option Pos × Option Pos :=
  l.foldl
    (fun acc pc =>
      if pc.2 = CellType.start then (some pc.1, acc.2)
      else if pc.2 = CellType.«end» then (acc.1, some pc.1)
      else acc)
    acc

/-- "Last wins" over an enumerated list: position of the last entry of type
`t`, defaulting to `a`. -/
def lastWins (l : List (Pos × CellType)) (t : CellType) (a : Option Pos) : Option Pos :=
  match (l.filter fun pc => pc.2 = t).getLast? with
  | some pc => some pc.1
  | none => a

/-- The cells the greedy inline scan enumerates: positions `(i, j)` for
`i < rows`, `j < grid[0].length`, with their looked-up types. -/
def greedyScanCells (grid : Grid) : List (Pos × Option CellType) :=
  (List.range (gridRows grid)).flatMap fun (i : Nat) =>
    (List.range (gridCols grid)).map fun (j : Nat) =>
      ((⟨(i : Int), (j : Int)⟩ : Pos), cellTypeAt grid ⟨(i : Int), (j : Int)⟩)

/-- The greedy scan step, on looked-up (hence optional) cell types; the two
independent `if`s of the source. -/
def scanPairsO (l : List (Pos × Option CellType)) (acc : Option Pos × Option Pos) :
    Option Pos × Option Pos :=
  l.foldl
    (fun acc pc =>
      let acc1 := if pc.2 = some CellType.start then (some pc.1, acc.2) else acc
      if pc.2 = some CellType.«end» then (acc1.1, some pc.1) else acc1)
    acc

/-! ## Concrete grids used by counterexamples and witnesses -/

/-- 3×3 open grid: start top-left, end bottom-right (spec scenario 1). -/
def g3open : Grid :=
  mkGrid [[CellType.start, CellType.empty, CellType.empty],
          [CellType.empty, CellType.empty, CellType.empty],
          [CellType.empty, CellType.empty, CellType.«end»]]

/-- 1×2 grid `[start, end]`. -/
def g12 : Grid := mkGrid [[CellType.start, CellType.«end»]]

/-- 1×3 grid `[start, empty, end]`. -/
def g13 : Grid := mkGrid [[CellType.start, CellType.empty, CellType.«end»]]

/-- 1×5 grid `[start, empty, empty, wall, end]`: the end is unreachable and
`greedyBestFirst` re-opens the two middle cells forever. -/
def g15 : Grid :=
  mkGrid [[CellType.start, CellType.empty, CellType.empty, CellType.wall,
           CellType.«end»]]

/-! ## Invariants used to prove that no position is visited twice (claim C2) -/

/-- `p` lies inside the grid bounds (the bound checks of the inline neighbor
filter of `greedyBestFirst`). -/
def inGrid (g : Grid) (p : Pos) : Prop :=
  0 ≤ p.row ∧ p.row < (gridRows g : Int) ∧ 0 ≤ p.col ∧ p.col < (gridCols g : Int)

/-- `p` is in bounds and not a wall: exactly the cells the greedy neighbor
filter lets through. -/
def okCell (g : Grid) (p : Pos) : Prop :=
  inGrid g p ∧ passable (cellTypeAt g p) = true

/-- BFS loop invariant for C2: the trace and the queue together are
duplicate-free, and everything in them is marked in the key set. -/
def bfsC2Inv (s : BfsState) : Prop :=
  (s.visitedPositions ++ s.queue).Nodup ∧
    ∀ p ∈ s.visitedPositions ++ s.queue, p ∈ s.visited

/-- DFS loop invariant for C2 (same shape as BFS with the stack). -/
def dfsC2Inv (s : DfsState) : Prop :=
  (s.visitedPositions ++ s.stack).Nodup ∧
    ∀ p ∈ s.visitedPositions ++ s.stack, p ∈ s.visited

/-- Dijkstra loop invariant for C2: the trace is duplicate-free and contained
in the visited key set (and `getMinDistance` only returns unvisited cells). -/
def dijkstraC2Inv (s : DijkstraState) : Prop :=
  s.visitedPositions.Nodup ∧ ∀ p ∈ s.visitedPositions, p ∈ s.visited

/-- A* loop invariant for C2: trace duplicate-free and inside the closed set,
open set duplicate-free and disjoint from the closed set. -/
def aStarC2Inv (s : AStarState) : Prop :=
  s.visitedPositions.Nodup ∧ (∀ p ∈ s.visitedPositions, p ∈ s.closedSet) ∧
    s.openSet.Nodup ∧ ∀ p ∈ s.openSet, p ∉ s.closedSet

/-- Greedy initial shape: exactly the state `greedyBestFirst` builds before
its loop. -/
def gShape0 (g : Grid) (startP : Pos) (s : GreedyState) : Prop :=
  s.grid = g ∧ s.openSet = [startP] ∧ s.closedSet = {startP} ∧ s.visited = [] ∧
    ∀ p, s.cameFrom p = none

/-- Greedy core state facts after the first pop: the closed set still only
holds the start, the open set is duplicate-free, the start never re-enters it,
and every open cell passed the neighbor filter. -/
def gCore (g : Grid) (startP : Pos) (s : GreedyState) : Prop :=
  s.grid = g ∧ s.closedSet = {startP} ∧ s.openSet.Nodup ∧ startP ∉ s.openSet ∧
    ∀ p ∈ s.openSet, okCell g p

/-- The parent pointer of any open cell one step from the end either is the
start (and then only the start has been expanded), or is a currently closed-out
adjacent cell; this is what decides the fate of the final reconstruction. -/
def gKey1 (g : Grid) (startP endP : Pos) (s : GreedyState) : Prop :=
  ∀ x ∈ s.openSet, heuristic x endP = 1 → ∀ z, s.cameFrom x = some z →
    (z = startP ∧ s.visited = [startP]) ∨
    (z ≠ startP ∧ z ∉ s.openSet ∧ okCell g z ∧ z ∈ greedyCandidates x)

/-- Greedy mid-run shape: the end has not been discovered yet. -/
def gAB (g : Grid) (startP endP : Pos) (s : GreedyState) : Prop :=
  gCore g startP s ∧ endP ∉ s.openSet ∧ s.cameFrom endP = none ∧
    endP ∉ s.visited ∧ gKey1 g startP endP s

/-- Clean phase: no expanded cell has been re-opened, so the trace is
duplicate-free and disjoint from the open set. -/
def gClean (s : GreedyState) : Prop :=
  s.visited.Nodup ∧ ∀ p ∈ s.openSet, p ∉ s.visited

/-- Tainted phase: some already-expanded cell `x` is open again, with an
already-expanded passable neighbor `w` (≠ start).  Popping `x` re-opens `w`
and vice versa, so the open set can never empty out again. -/
def gTaint (g : Grid) (startP : Pos) (s : GreedyState) : Prop :=
  ∃ x w, x ∈ s.openSet ∧ x ∈ s.visited ∧ w ∈ s.visited ∧ w ≠ startP ∧
    okCell g w ∧ x ∈ greedyCandidates w

/-- Final shape: the end has just been added to the open set (it is popped on
the very next iteration).  The parent chain from the end either is the short
clean chain `end → start` / `end → c → start` — with the trace pinned down —
or provably never reaches the start. -/
def gFinal (g : Grid) (startP endP : Pos) (s : GreedyState) : Prop :=
  s.grid = g ∧ endP ∈ s.openSet ∧ endP ∉ s.visited ∧
    ((s.cameFrom endP = some startP ∧ s.visited = [startP]) ∨
     (∃ c, s.cameFrom endP = some c ∧ s.cameFrom c = some startP ∧
        s.visited = [startP, c] ∧ c ≠ startP ∧ c ≠ endP) ∨
     (∃ c, s.cameFrom endP = some c ∧ s.cameFrom c = none ∧ c ≠ startP) ∨
     (∃ c z, s.cameFrom endP = some c ∧ s.cameFrom c = some z ∧
        s.cameFrom z = some c ∧ c ≠ startP ∧ z ≠ startP))

/-- The full greedy loop invariant for C2. -/
def gInv (g : Grid) (startP endP : Pos) (s : GreedyState) : Prop :=
  gShape0 g startP s ∨ (gAB g startP endP s ∧ (gClean s ∨ gTaint g startP s)) ∨
    gFinal g startP endP s

/-- The body of the neighbor fold of `greedyExpand`, as a named function so
that lemmas can talk about its iterations. -/
def greedyStep (current : Pos) (s : GreedyState) (neighbor : Pos) : GreedyState :=
  if neighbor.row < 0 ∨ (gridRows s.grid : Int) ≤ neighbor.row ∨
      neighbor.col < 0 ∨ (gridCols s.grid : Int) ≤ neighbor.col ∨
      passable (cellTypeAt s.grid neighbor) = false ∨
      neighbor ∈ s.closedSet then s
  else if neighbor ∈ s.openSet then s
  else
    { s with
      openSet := s.openSet ++ [neighbor]
      cameFrom := fupdate s.cameFrom neighbor current }

/-! # Theorems -/

/-- Any invariant preserved by each step of a `foldl` holds of its result. -/
theorem foldl_preserve {σ α : Type} {P : σ → Prop} {f : σ → α → σ}
    (h : ∀ s x, P s → P (f s x)) :
    ∀ (l : List α) (s : σ), P s → P (l.foldl f s)
  | [], _, hs => hs
  | x :: l, s, hs => foldl_preserve h l (f s x) (h s x hs)

/-! ## The engine never writes to the grid (frame lemmas) -/

theorem bfsEnqueue_grid (s : BfsState) (c : Pos) :
    (bfsEnqueue s c).grid = s.grid := by
  unfold bfsEnqueue
  apply foldl_preserve (P := fun (t : BfsState) => t.grid = s.grid) _ _ s rfl
  intro t x ht
  dsimp only
  repeat' split
  all_goals simpa using ht

theorem dfsPush_grid (s : DfsState) (c : Pos) :
    (dfsPush s c).grid = s.grid := by
  unfold dfsPush
  apply foldl_preserve (P := fun (t : DfsState) => t.grid = s.grid) _ _ s rfl
  intro t x ht
  dsimp only
  repeat' split
  all_goals simpa using ht

theorem dijkstraRelax_grid (s : DijkstraState) (c : Pos) :
    (dijkstraRelax s c).grid = s.grid := by
  unfold dijkstraRelax
  apply foldl_preserve (P := fun (t : DijkstraState) => t.grid = s.grid) _ _ s rfl
  intro t x ht
  dsimp only
  repeat' split
  all_goals simpa using ht

theorem aStarUpdate_grid (e : Pos) (s : AStarState) (c : Pos) :
    (aStarUpdate e s c).grid = s.grid := by
  unfold aStarUpdate
  apply foldl_preserve (P := fun (t : AStarState) => t.grid = s.grid) _ _ s rfl
  intro t x ht
  dsimp only
  repeat' split
  all_goals simpa using ht

theorem greedyExpand_grid (s : GreedyState) (c : Pos) :
    (greedyExpand s c).grid = s.grid := by
  unfold greedyExpand
  apply foldl_preserve (P := fun (t : GreedyState) => t.grid = s.grid) _ _ s rfl
  intro t x ht
  dsimp only
  repeat' split
  all_goals simpa using ht

theorem bfsLoop_grid (a b : Pos) (rf : Nat) :
    ∀ (fuel : Nat) (s : BfsState) (r : AlgorithmResult) (g2 : Grid),
      bfsLoop a b rf fuel s = some (r, g2) → g2 = s.grid := by
  intro fuel
  induction fuel with
  | zero => intro s r g2 h; simp [bfsLoop] at h
  | succ n ih =>
    intro s r g2 h
    rw [bfsLoop] at h
    rcases hq : s.queue with _ | ⟨current, rest⟩ <;> rw [hq] at h
    · simp only [Option.some_inj, Prod.mk.injEq] at h; exact h.2.symm
    · dsimp only at h
      split at h
      · rcases hr : reconstructPath _ a rf b with _ | p <;> rw [hr] at h
        · simp at h
        · simp only [Option.some_inj, Prod.mk.injEq] at h; exact h.2.symm
      · have := ih _ _ _ h
        rw [this, bfsEnqueue_grid]

theorem dfsLoop_grid (a b : Pos) (rf : Nat) :
    ∀ (fuel : Nat) (s : DfsState) (r : AlgorithmResult) (g2 : Grid),
      dfsLoop a b rf fuel s = some (r, g2) → g2 = s.grid := by
  intro fuel
  induction fuel with
  | zero => intro s r g2 h; simp [dfsLoop] at h
  | succ n ih =>
    intro s r g2 h
    rw [dfsLoop] at h
    rcases hq : s.stack with _ | ⟨current, rest⟩ <;> rw [hq] at h
    · simp only [Option.some_inj, Prod.mk.injEq] at h; exact h.2.symm
    · dsimp only at h
      split at h
      · rcases hr : reconstructPath _ a rf b with _ | p <;> rw [hr] at h
        · simp at h
        · simp only [Option.some_inj, Prod.mk.injEq] at h; exact h.2.symm
      · have := ih _ _ _ h
        rw [this, dfsPush_grid]

theorem dijkstraLoop_grid (a b : Pos) (rf : Nat) :
    ∀ (fuel : Nat) (s : DijkstraState) (r : AlgorithmResult) (g2 : Grid),
      dijkstraLoop a b rf fuel s = some (r, g2) → g2 = s.grid := by
  intro fuel
  induction fuel with
  | zero => intro s r g2 h; simp [dijkstraLoop] at h
  | succ n ih =>
    intro s r g2 h
    rw [dijkstraLoop] at h
    rcases hq : getMinDistance s with _ | current <;> rw [hq] at h
    · simp only [Option.some_inj, Prod.mk.injEq] at h; exact h.2.symm
    · dsimp only at h
      split at h
      · rcases hr : reconstructPath _ a rf b with _ | p <;> rw [hr] at h
        · simp at h
        · simp only [Option.some_inj, Prod.mk.injEq] at h; exact h.2.symm
      · have := ih _ _ _ h
        rw [this, dijkstraRelax_grid]

theorem aStarLoop_grid (a b : Pos) (rf : Nat) :
    ∀ (fuel : Nat) (s : AStarState) (r : AlgorithmResult) (g2 : Grid),
      aStarLoop a b rf fuel s = some (r, g2) → g2 = s.grid := by
  intro fuel
  induction fuel with
  | zero => intro s r g2 h; simp [aStarLoop] at h
  | succ n ih =>
    intro s r g2 h
    rw [aStarLoop] at h
    rcases hq : s.openSet with _ | ⟨x, xs⟩ <;> rw [hq] at h
    · simp only [Option.some_inj, Prod.mk.injEq] at h; exact h.2.symm
    · rcases hm : lowestFScore s.openSet s.fScore with _ | current <;>
        rw [hq] at hm <;> rw [hm] at h
      · simp at h
      · dsimp only at h
        split at h
        · rcases hr : reconstructPath _ a rf b with _ | p <;> rw [hr] at h
          · simp at h
          · simp only [Option.some_inj, Prod.mk.injEq] at h; exact h.2.symm
        · have := ih _ _ _ h
          rw [this, aStarUpdate_grid]

theorem greedyLoop_grid (a b : Pos) (rf : Nat) :
    ∀ (fuel : Nat) (s : GreedyState) (r : AlgorithmResult) (g2 : Grid),
      greedyLoop a b rf fuel s = some (r, g2) → g2 = s.grid := by
  intro fuel
  induction fuel with
  | zero => intro s r g2 h; simp [greedyLoop] at h
  | succ n ih =>
    intro s r g2 h
    rw [greedyLoop] at h
    rcases hq : s.openSet with _ | ⟨x, xs⟩ <;> rw [hq] at h
    · simp only [Option.some_inj, Prod.mk.injEq] at h; exact h.2.symm
    · dsimp only at h
      split at h
      · rcases hr : reconstructPath _ a rf b with _ | p <;> rw [hr] at h
        · simp at h
        · simp only [Option.some_inj, Prod.mk.injEq] at h; exact h.2.symm
      · have := ih _ _ _ h
        rw [this, greedyExpand_grid]

theorem bfs_grid_eq (g : Grid) (r : AlgorithmResult) (g2 : Grid)
    (h : bfs g = some (r, g2)) : g2 = g := by
  unfold bfs at h
  rcases hf : findStartAndEnd g with ⟨s, e⟩
  rw [hf] at h
  match s, e, h with
  | some s, some e, h => exact bfsLoop_grid _ _ _ _ _ _ _ h
  | some s, none, h => simp_all
  | none, some e, h => simp_all
  | none, none, h => simp_all

theorem dfs_grid_eq (g : Grid) (r : AlgorithmResult) (g2 : Grid)
    (h : dfs g = some (r, g2)) : g2 = g := by
  unfold dfs at h
  rcases hf : findStartAndEnd g with ⟨s, e⟩
  rw [hf] at h
  match s, e, h with
  | some s, some e, h => exact dfsLoop_grid _ _ _ _ _ _ _ h
  | some s, none, h => simp_all
  | none, some e, h => simp_all
  | none, none, h => simp_all

theorem dijkstra_grid_eq (g : Grid) (r : AlgorithmResult) (g2 : Grid)
    (h : dijkstra g = some (r, g2)) : g2 = g := by
  unfold dijkstra at h
  rcases hf : findStartAndEnd g with ⟨s, e⟩
  rw [hf] at h
  match s, e, h with
  | some s, some e, h => exact dijkstraLoop_grid _ _ _ _ _ _ _ h
  | some s, none, h => simp_all
  | none, some e, h => simp_all
  | none, none, h => simp_all

theorem aStar_grid_eq (g : Grid) (r : AlgorithmResult) (g2 : Grid)
    (h : aStar g = some (r, g2)) : g2 = g := by
  unfold aStar at h
  rcases hf : findStartAndEnd g with ⟨s, e⟩
  rw [hf] at h
  match s, e, h with
  | some s, some e, h => exact aStarLoop_grid _ _ _ _ _ _ _ h
  | some s, none, h => simp_all
  | none, some e, h => simp_all
  | none, none, h => simp_all

theorem greedy_grid_eq (g : Grid) (r : AlgorithmResult) (g2 : Grid)
    (h : greedyBestFirst g = some (r, g2)) : g2 = g := by
  unfold greedyBestFirst at h
  rcases hf : greedyFindStartEnd g with ⟨s, e⟩
  rw [hf] at h
  match s, e, h with
  | some s, some e, h => exact greedyLoop_grid _ _ _ _ _ _ _ h
  | some s, none, h => simp_all
  | none, some e, h => simp_all
  | none, none, h => simp_all

/-! ## Claim C8: the engine never mutates its input grid -/

/-- Claim C8: for every grid and every one of the five strategies, the grid
after the call is the grid before the call — each strategy threads the grid
through its state untouched and hands back the very same grid. -/
theorem claim_C8_no_grid_mutation :
    (∀ g r g2, bfs g = some (r, g2) → g2 = g) ∧
    (∀ g r g2, dfs g = some (r, g2) → g2 = g) ∧
    (∀ g r g2, dijkstra g = some (r, g2) → g2 = g) ∧
    (∀ g r g2, aStar g = some (r, g2) → g2 = g) ∧
    (∀ g r g2, greedyBestFirst g = some (r, g2) → g2 = g) :=
  ⟨bfs_grid_eq, dfs_grid_eq, dijkstra_grid_eq, aStar_grid_eq, greedy_grid_eq⟩

theorem claim_C8_witness :
    bfs g12 = some (⟨[⟨0, 0⟩, ⟨0, 1⟩], [⟨0, 0⟩, ⟨0, 1⟩], true⟩, g12) ∧ g12 = g12 :=
  ⟨by decide, claim_C8_no_grid_mutation.1 g12 ⟨[⟨0, 0⟩, ⟨0, 1⟩], [⟨0, 0⟩, ⟨0, 1⟩], true⟩
    g12 (by decide)⟩

/-! ## Claim C9: no hidden randomness -/

/-- Claim C9: invoking a strategy twice on the same (unmutated) grid gives
identical results: each strategy is a pure function of the grid value, and
since a call hands back its input grid unchanged, re-running the strategy on
the grid a call returned is the same invocation again. -/
theorem claim_C9_idempotent :
    (∀ g r g2, bfs g = some (r, g2) → bfs g2 = bfs g) ∧
    (∀ g r g2, dfs g = some (r, g2) → dfs g2 = dfs g) ∧
    (∀ g r g2, dijkstra g = some (r, g2) → dijkstra g2 = dijkstra g) ∧
    (∀ g r g2, aStar g = some (r, g2) → aStar g2 = aStar g) ∧
    (∀ g r g2, greedyBestFirst g = some (r, g2) → greedyBestFirst g2 = greedyBestFirst g) :=
  ⟨fun g r g2 h => by rw [bfs_grid_eq g r g2 h],
   fun g r g2 h => by rw [dfs_grid_eq g r g2 h],
   fun g r g2 h => by rw [dijkstra_grid_eq g r g2 h],
   fun g r g2 h => by rw [aStar_grid_eq g r g2 h],
   fun g r g2 h => by rw [greedy_grid_eq g r g2 h]⟩

theorem claim_C9_witness :
    dfs g12 = some (⟨[⟨0, 0⟩, ⟨0, 1⟩], [⟨0, 0⟩, ⟨0, 1⟩], true⟩, g12) ∧ dfs g12 = dfs g12 :=
  ⟨by decide, claim_C9_idempotent.2.1 g12 ⟨[⟨0, 0⟩, ⟨0, 1⟩], [⟨0, 0⟩, ⟨0, 1⟩], true⟩
    g12 (by decide)⟩

/-! ## The start/end locator is a last-wins row-major scan (claim C7) -/

theorem foldl_flatMap {α β γ : Type} (f : β → α → β) (g : γ → List α) :
    ∀ (l : List γ) (init : β),
      (l.flatMap g).foldl f init = l.foldl (fun acc x => (g x).foldl f acc) init
  | [], _ => rfl
  | x :: l, init => by
    rw [List.flatMap_cons, List.foldl_append, List.foldl_cons, foldl_flatMap f g l]

theorem scanPairs_append (l1 l2 : List (Pos × CellType)) (acc : Option Pos × Option Pos) :
    scanPairs (l1 ++ l2) acc = scanPairs l2 (scanPairs l1 acc) := by
  simp [scanPairs, List.foldl_append]

theorem lastWins_concat (l : List (Pos × CellType)) (x : Pos × CellType)
    (t : CellType) (a : Option Pos) :
    lastWins (l ++ [x]) t a = if x.2 = t then some x.1 else lastWins l t a := by
  unfold lastWins
  rw [List.filter_append]
  by_cases hx : x.2 = t
  · simp [hx, List.getLast?_concat]
  · simp [hx]

theorem scanPairs_eq_lastWins :
    ∀ (l : List (Pos × CellType)) (a b : Option Pos),
      scanPairs l (a, b) =
        (lastWins l CellType.start a, lastWins l CellType.«end» b) := by
  intro l
  induction l using List.reverseRecOn with
  | nil => intro a b; simp [scanPairs, lastWins]
  | append_singleton l x ih =>
    intro a b
    rw [scanPairs_append, ih, lastWins_concat, lastWins_concat]
    rcases x with ⟨p, t⟩
    cases t <;> simp [scanPairs]

theorem findStartAndEnd_eq_scanPairs (g : Grid) :
    findStartAndEnd g = scanPairs (cellsRowMajor g) (none, none) := by
  unfold findStartAndEnd cellsRowMajor scanPairs
  rw [foldl_flatMap]
  simp only [List.foldl_map]

theorem lastOfType_eq_lastWins (g : Grid) (t : CellType) :
    lastOfType g t = lastWins (cellsRowMajor g) t none := by
  unfold lastOfType lastWins
  cases (cellsRowMajor g).filter (fun pc => pc.2 = t) |>.getLast? <;> rfl

theorem findStartAndEnd_eq_lastOfType (g : Grid) :
    findStartAndEnd g = (lastOfType g CellType.start, lastOfType g CellType.«end») := by
  rw [findStartAndEnd_eq_scanPairs, scanPairs_eq_lastWins,
    lastOfType_eq_lastWins, lastOfType_eq_lastWins]

theorem cellTypeAt_cons_succ (row : List Cell) (g : Grid) (i : Nat) (j : Int) :
    cellTypeAt (row :: g) ⟨(i : Int) + 1, j⟩ = cellTypeAt g ⟨(i : Int), j⟩ := by
  unfold cellTypeAt
  have h1 : ¬ ((i : Int) + 1 < 0) := by omega
  have h2 : ¬ ((i : Int) < 0) := by omega
  by_cases hj : j < 0
  · simp [hj]
  · simp only [h1, h2, false_or, hj, if_neg]
    have : ((i : Int) + 1).toNat = i + 1 := by omega
    rw [this]
    have : ((i : Int)).toNat = i := by omega
    rw [this]
    rfl

theorem cellTypeAt_cons_zero (row : List Cell) (g : Grid) (j : Nat) :
    cellTypeAt (row :: g) ⟨0, (j : Int)⟩ = (row.get? j).map Cell.type := by
  unfold cellTypeAt
  have h1 : ¬ ((0 : Int) < 0) := by omega
  have h2 : ¬ ((j : Int) < 0) := by omega
  simp only [h1, h2, false_or, if_neg, not_false_iff]
  have : ((j : Int)).toNat = j := by omega
  rw [this]
  rfl

theorem greedyRow_eq (row : List Cell) (g : Grid) (n : Nat) :
    (List.range row.length).map
        (fun (j : Nat) => ((⟨(n : Int), (j : Int)⟩ : Pos),
          cellTypeAt (row :: g) ⟨((0 : Nat) : Int), (j : Int)⟩)) =
      row.enum.map (fun cp => ((⟨(n : Int), (cp.1 : Int)⟩ : Pos), some cp.2.type)) := by
  apply List.ext_getElem
  · simp
  · intro k hk1 hk2
    simp only [List.getElem_map, List.getElem_range, List.getElem_enum, Nat.cast_zero]
    rw [cellTypeAt_cons_zero]
    have hk : k < row.length := by simpa using hk1
    rw [List.get?_eq_getElem?, List.getElem?_eq_getElem hk]
    rfl

theorem greedyScan_core :
    ∀ (g : Grid) (cols n : Nat), (∀ row ∈ g, row.length = cols) →
      (List.range g.length).flatMap
          (fun (i : Nat) => (List.range cols).map
            (fun (j : Nat) => ((⟨((n + i : Nat) : Int), (j : Int)⟩ : Pos),
              cellTypeAt g ⟨(i : Int), (j : Int)⟩))) =
        (List.enumFrom n g).flatMap
          (fun rp => rp.2.enum.map
            (fun cp => ((⟨(rp.1 : Int), (cp.1 : Int)⟩ : Pos), some cp.2.type))) := by
  intro g
  induction g with
  | nil => intro cols n _; simp
  | cons row rest ih =>
    intro cols n hcols
    have hrow : row.length = cols := hcols row (List.mem_cons_self _ _)
    rw [List.length_cons, List.range_succ_eq_map, List.flatMap_cons,
      List.enumFrom_cons, List.flatMap_cons, List.flatMap_map]
    congr 1
    · rw [← hrow]
      have h0 : ∀ j : Nat,
          ((⟨((n + 0 : Nat) : Int), (j : Int)⟩ : Pos),
            cellTypeAt (row :: rest) ⟨((0 : Nat) : Int), (j : Int)⟩) =
          ((⟨(n : Int), (j : Int)⟩ : Pos),
            cellTypeAt (row :: rest) ⟨((0 : Nat) : Int), (j : Int)⟩) := by
        intro j; norm_num
      calc (List.range row.length).map
            (fun (j : Nat) => ((⟨((n + 0 : Nat) : Int), (j : Int)⟩ : Pos),
              cellTypeAt (row :: rest) ⟨((0 : Nat) : Int), (j : Int)⟩))
          = (List.range row.length).map
            (fun (j : Nat) => ((⟨(n : Int), (j : Int)⟩ : Pos),
              cellTypeAt (row :: rest) ⟨((0 : Nat) : Int), (j : Int)⟩)) := by
            apply List.map_congr_left; intro j _; exact h0 j
        _ = row.enum.map
            (fun cp => ((⟨(n : Int), (cp.1 : Int)⟩ : Pos), some cp.2.type)) :=
            greedyRow_eq row rest n
    · have step : ∀ i ∈ List.range rest.length,
          (List.range cols).map
            (fun (j : Nat) => ((⟨((n + Nat.succ i : Nat) : Int), (j : Int)⟩ : Pos),
              cellTypeAt (row :: rest) ⟨((Nat.succ i : Nat) : Int), (j : Int)⟩)) =
          (List.range cols).map
            (fun (j : Nat) => ((⟨((n + 1 + i : Nat) : Int), (j : Int)⟩ : Pos),
              cellTypeAt rest ⟨(i : Int), (j : Int)⟩)) := by
        intro i _
        apply List.map_congr_left
        intro j _
        have hc : ((Nat.succ i : Nat) : Int) = (i : Int) + 1 := by push_cast; ring
        rw [hc, cellTypeAt_cons_succ]
        have hn : ((n + Nat.succ i : Nat) : Int) = ((n + 1 + i : Nat) : Int) := by
          push_cast; ring
        rw [hn]
      rw [List.flatMap_congr step]
      exact ih cols (n + 1) (fun r hr => hcols r (List.mem_cons_of_mem _ hr))

theorem greedyScanCells_eq (g : Grid) (h : ∀ row ∈ g, row.length = gridCols g) :
    greedyScanCells g =
      (cellsRowMajor g).map (fun pc => (pc.1, some pc.2)) := by
  unfold greedyScanCells cellsRowMajor gridRows
  have core := greedyScan_core g (gridCols g) 0 h
  simp only [Nat.zero_add] at core
  rw [core]
  have henum : List.enumFrom 0 g = g.enum := rfl
  rw [henum, List.map_flatMap]
  apply List.flatMap_congr
  intro rp _
  rw [List.map_map]
  rfl

theorem greedyFindStartEnd_eq_scanPairsO (g : Grid) :
    greedyFindStartEnd g = scanPairsO (greedyScanCells g) (none, none) := by
  unfold greedyFindStartEnd greedyScanCells scanPairsO gridRows
  rw [foldl_flatMap]
  simp only [List.foldl_map]

theorem scanPairsO_map_eq (l : List (Pos × CellType)) (acc : Option Pos × Option Pos) :
    scanPairsO (l.map fun pc => (pc.1, some pc.2)) acc = scanPairs l acc := by
  unfold scanPairsO scanPairs
  rw [List.foldl_map]
  congr 1
  funext a pc
  rcases pc with ⟨p, t⟩
  cases t <;> rfl

theorem greedyFindStartEnd_eq (g : Grid) (h : ∀ row ∈ g, row.length = gridCols g) :
    greedyFindStartEnd g = findStartAndEnd g := by
  rw [greedyFindStartEnd_eq_scanPairsO, greedyScanCells_eq g h, scanPairsO_map_eq,
    ← findStartAndEnd_eq_scanPairs]

/-- Claim C7: the start/end locator scans the grid in row-major order and
returns the position of the last `start`-typed cell and the last `end`-typed
cell (each `none` when absent) — last wins under duplicates; and on
rectangular grids the greedy strategy\'s inline scan agrees with it. -/
theorem claim_C7_locator_last_wins :
    (∀ g : Grid, findStartAndEnd g =
      (lastOfType g CellType.start, lastOfType g CellType.«end»)) ∧
    (∀ g : Grid, wellFormed g → greedyFindStartEnd g = findStartAndEnd g) :=
  ⟨findStartAndEnd_eq_lastOfType, fun g hwf => greedyFindStartEnd_eq g hwf.2.2.1⟩

theorem claim_C7_witness :
    wellFormed g3open ∧ greedyFindStartEnd g3open = findStartAndEnd g3open :=
  ⟨by decide, claim_C7_locator_last_wins.2 g3open (by decide)⟩

/-! ## Missing start or end (claim C6) -/

theorem mem_cellsRowMajor_type (g : Grid) (pc : Pos × CellType)
    (h : pc ∈ cellsRowMajor g) : hasCellOfType g pc.2 := by
  unfold cellsRowMajor at h
  rw [List.mem_flatMap] at h
  obtain ⟨rp, hrp, hmem⟩ := h
  rw [List.mem_map] at hmem
  obtain ⟨cp, hcp, rfl⟩ := hmem
  refine ⟨rp.2, ?_, cp.2, ?_, rfl⟩
  · exact List.snd_mem_of_mem_enum hrp
  · exact List.snd_mem_of_mem_enum hcp

theorem findStartAndEnd_fst_none (g : Grid)
    (h : ¬ hasCellOfType g CellType.start) : (findStartAndEnd g).1 = none := by
  rw [findStartAndEnd_eq_lastOfType]
  unfold lastOfType
  have : (cellsRowMajor g).filter (fun pc => pc.2 = CellType.start) = [] := by
    rw [List.filter_eq_nil_iff]
    intro pc hpc hdec
    exact h (by
      have := mem_cellsRowMajor_type g pc hpc
      rwa [show pc.2 = CellType.start from by simpa using hdec] at this)
  rw [this]
  rfl

theorem findStartAndEnd_snd_none (g : Grid)
    (h : ¬ hasCellOfType g CellType.«end») : (findStartAndEnd g).2 = none := by
  rw [findStartAndEnd_eq_lastOfType]
  unfold lastOfType
  have : (cellsRowMajor g).filter (fun pc => pc.2 = CellType.«end») = [] := by
    rw [List.filter_eq_nil_iff]
    intro pc hpc hdec
    exact h (by
      have := mem_cellsRowMajor_type g pc hpc
      rwa [show pc.2 = CellType.«end» from by simpa using hdec] at this)
  rw [this]
  rfl

theorem cellTypeAt_hasCell (g : Grid) (p : Pos) (t : CellType)
    (h : cellTypeAt g p = some t) : hasCellOfType g t := by
  unfold cellTypeAt at h
  split at h
  · exact absurd h (by simp)
  · rw [Option.bind_eq_some] at h
    obtain ⟨row, hrow, hmap⟩ := h
    rw [Option.map_eq_some'] at hmap
    obtain ⟨c, hc, rfl⟩ := hmap
    exact ⟨row, List.get?_mem hrow, c, List.get?_mem hc, rfl⟩

theorem scanPairsO_fst_none (l : List (Pos × Option CellType))
    (h : ∀ pc ∈ l, pc.2 ≠ some CellType.start) (b : Option Pos) :
    (scanPairsO l (none, b)).1 = none := by
  unfold scanPairsO
  have main : ∀ (l2 : List (Pos × Option CellType)),
      (∀ pc ∈ l2, pc.2 ≠ some CellType.start) → ∀ b2 : Option Pos,
      (l2.foldl
        (fun acc pc =>
          let acc1 := if pc.2 = some CellType.start then (some pc.1, acc.2) else acc
          if pc.2 = some CellType.«end» then (acc1.1, some pc.1) else acc1)
        (none, b2)).1 = none := by
    intro l2
    induction l2 with
    | nil => intro _ b2; rfl
    | cons x xs ih =>
      intro hx b2
      rw [List.foldl_cons]
      have hxs : x.2 ≠ some CellType.start := hx x (List.mem_cons_self _ _)
      simp only [hxs, if_false, if_neg]
      split
      · exact ih (fun pc hpc => hx pc (List.mem_cons_of_mem _ hpc)) _
      · exact ih (fun pc hpc => hx pc (List.mem_cons_of_mem _ hpc)) b2
  exact main l h b

theorem scanPairsO_snd_none (l : List (Pos × Option CellType))
    (h : ∀ pc ∈ l, pc.2 ≠ some CellType.«end») (a : Option Pos) :
    (scanPairsO l (a, none)).2 = none := by
  unfold scanPairsO
  have main : ∀ (l2 : List (Pos × Option CellType)),
      (∀ pc ∈ l2, pc.2 ≠ some CellType.«end») → ∀ a2 : Option Pos,
      (l2.foldl
        (fun acc pc =>
          let acc1 := if pc.2 = some CellType.start then (some pc.1, acc.2) else acc
          if pc.2 = some CellType.«end» then (acc1.1, some pc.1) else acc1)
        (a2, none)).2 = none := by
    intro l2
    induction l2 with
    | nil => intro _ a2; rfl
    | cons x xs ih =>
      intro hx a2
      rw [List.foldl_cons]
      have hxe : x.2 ≠ some CellType.«end» := hx x (List.mem_cons_self _ _)
      simp only [hxe, if_false, if_neg]
      split
      · exact ih (fun pc hpc => hx pc (List.mem_cons_of_mem _ hpc)) _
      · exact ih (fun pc hpc => hx pc (List.mem_cons_of_mem _ hpc)) a2
  exact main l h a

theorem greedyFind_fst_none (g : Grid)
    (h : ¬ hasCellOfType g CellType.start) : (greedyFindStartEnd g).1 = none := by
  rw [greedyFindStartEnd_eq_scanPairsO]
  apply scanPairsO_fst_none
  intro pc hpc hsome
  unfold greedyScanCells at hpc
  rw [List.mem_flatMap] at hpc
  obtain ⟨i, _, hmem⟩ := hpc
  rw [List.mem_map] at hmem
  obtain ⟨j, _, rfl⟩ := hmem
  exact h (cellTypeAt_hasCell g _ _ (by simpa using hsome))

theorem greedyFind_snd_none (g : Grid)
    (h : ¬ hasCellOfType g CellType.«end») : (greedyFindStartEnd g).2 = none := by
  rw [greedyFindStartEnd_eq_scanPairsO]
  apply scanPairsO_snd_none
  intro pc hpc hsome
  unfold greedyScanCells at hpc
  rw [List.mem_flatMap] at hpc
  obtain ⟨i, _, hmem⟩ := hpc
  rw [List.mem_map] at hmem
  obtain ⟨j, _, rfl⟩ := hmem
  exact h (cellTypeAt_hasCell g _ _ (by simpa using hsome))

/-- Claim C6: when the grid has no `start`-typed cell or no `end`-typed cell,
every one of the five strategies returns exactly
`\{ path := [], visited := [], success := false \}` (and the untouched grid). -/
theorem claim_C6_missing_marker (g : Grid) (hwf : wellFormed g)
    (h : ¬ hasCellOfType g CellType.start ∨ ¬ hasCellOfType g CellType.«end») :
    bfs g = some (⟨[], [], false⟩, g) ∧ dfs g = some (⟨[], [], false⟩, g) ∧
    dijkstra g = some (⟨[], [], false⟩, g) ∧ aStar g = some (⟨[], [], false⟩, g) ∧
    greedyBestFirst g = some (⟨[], [], false⟩, g) := by
  rcases h with h | h
  · have h1 : (findStartAndEnd g).1 = none := findStartAndEnd_fst_none g h
    have h2 : (greedyFindStartEnd g).1 = none := greedyFind_fst_none g h
    refine ⟨?_, ?_, ?_, ?_, ?_⟩
    · unfold bfs
      rcases hf : findStartAndEnd g with ⟨a, b⟩
      rw [hf] at h1; subst h1
      cases b <;> rfl
    · unfold dfs
      rcases hf : findStartAndEnd g with ⟨a, b⟩
      rw [hf] at h1; subst h1
      cases b <;> rfl
    · unfold dijkstra
      rcases hf : findStartAndEnd g with ⟨a, b⟩
      rw [hf] at h1; subst h1
      cases b <;> rfl
    · unfold aStar
      rcases hf : findStartAndEnd g with ⟨a, b⟩
      rw [hf] at h1; subst h1
      cases b <;> rfl
    · unfold greedyBestFirst
      rcases hf : greedyFindStartEnd g with ⟨a, b⟩
      rw [hf] at h2; subst h2
      cases b <;> rfl
  · have h1 : (findStartAndEnd g).2 = none := findStartAndEnd_snd_none g h
    have h2 : (greedyFindStartEnd g).2 = none := greedyFind_snd_none g h
    refine ⟨?_, ?_, ?_, ?_, ?_⟩
    · unfold bfs
      rcases hf : findStartAndEnd g with ⟨a, b⟩
      rw [hf] at h1; subst h1
      cases a <;> rfl
    · unfold dfs
      rcases hf : findStartAndEnd g with ⟨a, b⟩
      rw [hf] at h1; subst h1
      cases a <;> rfl
    · unfold dijkstra
      rcases hf : findStartAndEnd g with ⟨a, b⟩
      rw [hf] at h1; subst h1
      cases a <;> rfl
    · unfold aStar
      rcases hf : findStartAndEnd g with ⟨a, b⟩
      rw [hf] at h1; subst h1
      cases a <;> rfl
    · unfold greedyBestFirst
      rcases hf : greedyFindStartEnd g with ⟨a, b⟩
      rw [hf] at h2; subst h2
      cases a <;> rfl

theorem claim_C6_witness :
    (wellFormed (mkGrid [[CellType.empty]]) ∧
      ¬ hasCellOfType (mkGrid [[CellType.empty]]) CellType.start) ∧
    bfs (mkGrid [[CellType.empty]]) = some (⟨[], [], false⟩, mkGrid [[CellType.empty]]) :=
  ⟨⟨by decide, by decide⟩,
    (claim_C6_missing_marker (mkGrid [[CellType.empty]]) (by decide)
      (Or.inl (by decide))).1⟩

/-! ## Claim C3: A* never records the end in its visited trace -/

theorem aStarUpdate_visited (e : Pos) (s : AStarState) (c : Pos) :
    (aStarUpdate e s c).visitedPositions = s.visitedPositions := by
  unfold aStarUpdate
  apply foldl_preserve
    (P := fun (t : AStarState) => t.visitedPositions = s.visitedPositions) _ _ s rfl
  intro t x ht
  dsimp only
  repeat' split
  all_goals simpa using ht

theorem aStarLoop_end_not_visited (a b : Pos) (rf : Nat) :
    ∀ (fuel : Nat) (s : AStarState) (r : AlgorithmResult) (g2 : Grid),
      b ∉ s.visitedPositions → aStarLoop a b rf fuel s = some (r, g2) →
      b ∉ r.visited := by
  intro fuel
  induction fuel with
  | zero => intro s r g2 _ h; simp [aStarLoop] at h
  | succ n ih =>
    intro s r g2 hb h
    rw [aStarLoop] at h
    rcases hq : s.openSet with _ | ⟨x, xs⟩ <;> rw [hq] at h
    · simp only [Option.some_inj, Prod.mk.injEq] at h
      rw [← h.1]
      exact hb
    · rcases hm : lowestFScore s.openSet s.fScore with _ | current <;>
        rw [hq] at hm <;> rw [hm] at h
      · simp at h
      · dsimp only at h
        split at h
        · rcases hr : reconstructPath _ a rf b with _ | p <;> rw [hr] at h
          · simp at h
          · simp only [Option.some_inj, Prod.mk.injEq] at h
            rw [← h.1]
            exact hb
        · refine ih _ _ _ ?_ h
          rw [aStarUpdate_visited]
          dsimp only
          rw [List.mem_append]
          rintro (hmem | hmem)
          · exact hb hmem
          · rename_i hne
            simp only [List.mem_singleton] at hmem
            exact hne hmem.symm

/-- Claim C3 counterexample: on the 1×2 grid `[start, end]`, A* succeeds but
its returned `visited` is `[start]` only — the end it popped is *not* in the
visited trace, refuting "the end position appears in the returned visited
sequence". -/
theorem claim_C3_counterexample :
    aStar g12 = some (⟨[⟨0, 0⟩, ⟨0, 1⟩], [⟨0, 0⟩], true⟩, g12) ∧
    findStartAndEnd g12 = (some ⟨0, 0⟩, some ⟨0, 1⟩) ∧
    (⟨0, 1⟩ : Pos) ∉ ([⟨0, 0⟩] : List Pos) :=
  ⟨by decide, by decide, by decide⟩

/-- Claim C3 (amended): A* records every popped position in `visited` at the
moment it is popped, before examining neighbors — except the end: the source
returns as soon as the popped position equals the end, *before* pushing it
onto `visitedPositions`, so the end never appears in the returned visited
sequence, in particular not in the success case. -/
theorem claim_C3_amended (g : Grid) (s e : Pos) (r : AlgorithmResult) (g2 : Grid)
    (hf : findStartAndEnd g = (some s, some e)) (h : aStar g = some (r, g2)) :
    e ∉ r.visited := by
  unfold aStar at h
  rw [hf] at h
  exact aStarLoop_end_not_visited s e _ _ _ r g2 (by simp) h

theorem claim_C3_witness :
    (findStartAndEnd g12 = (some ⟨0, 0⟩, some ⟨0, 1⟩) ∧
      aStar g12 = some (⟨[⟨0, 0⟩, ⟨0, 1⟩], [⟨0, 0⟩], true⟩, g12)) ∧
    (⟨0, 1⟩ : Pos) ∉
      (⟨[⟨0, 0⟩, ⟨0, 1⟩], [⟨0, 0⟩], true⟩ : AlgorithmResult).visited :=
  ⟨⟨by decide, by decide⟩,
    claim_C3_amended g12 ⟨0, 0⟩ ⟨0, 1⟩ ⟨[⟨0, 0⟩, ⟨0, 1⟩], [⟨0, 0⟩], true⟩ g12
      (by decide) (by decide)⟩

/-! ## Claim C1: greedy never terminates when the end is unreachable -/

/-- On `g15` the greedy loop ping-pongs between the two middle cells forever:
popped cells are never added to the closed set, so each of `(0,1)` and
`(0,2)` keeps re-opening the other.  The `cameFrom` map and the trace grow
but are never read by the loop, so the divergence holds for any of them. -/
theorem greedy_g15_cycle (rf : Nat) :
    ∀ (n : Nat) (cf : Pos → Option Pos) (tr : List Pos),
      greedyLoop ⟨0, 0⟩ ⟨0, 4⟩ rf n
        ⟨g15, [⟨0, 1⟩], {(⟨0, 0⟩ : Pos)}, cf, tr⟩ = none ∧
      greedyLoop ⟨0, 0⟩ ⟨0, 4⟩ rf n
        ⟨g15, [⟨0, 2⟩], {(⟨0, 0⟩ : Pos)}, cf, tr⟩ = none := by
  intro n
  induction n with
  | zero => intro cf tr; exact ⟨rfl, rfl⟩
  | succ m ih =>
    intro cf tr
    constructor
    · exact (ih (fupdate cf ⟨0, 2⟩ ⟨0, 1⟩) (tr ++ [⟨0, 1⟩])).2
    · exact (ih (fupdate cf ⟨0, 1⟩ ⟨0, 2⟩) (tr ++ [⟨0, 2⟩])).1

/-- Claim C1 (code bug): `greedyBestFirst` does not run to completion on the
1×5 grid `[start, empty, empty, wall, end]`, whose end is unreachable: its
main loop diverges (no amount of fuel makes it return), because the loop
never adds popped cells to `closedSet`.  `bfs` on the same grid returns
`success = false` as the claim demands. -/
theorem claim_C1_greedy_nontermination :
    (∀ (n rf : Nat) (cf : Pos → Option Pos) (tr : List Pos),
      greedyLoop ⟨0, 0⟩ ⟨0, 4⟩ rf n
        ⟨g15, [⟨0, 0⟩], {(⟨0, 0⟩ : Pos)}, cf, tr⟩ = none) ∧
    greedyBestFirst g15 = none ∧
    bfs g15 = some (⟨[], [⟨0, 0⟩, ⟨0, 1⟩, ⟨0, 2⟩], false⟩, g15) := by
  have main : ∀ (n rf : Nat) (cf : Pos → Option Pos) (tr : List Pos),
      greedyLoop ⟨0, 0⟩ ⟨0, 4⟩ rf n
        ⟨g15, [⟨0, 0⟩], {(⟨0, 0⟩ : Pos)}, cf, tr⟩ = none := by
    intro n rf cf tr
    match n with
    | 0 => rfl
    | m + 1 => exact (greedy_g15_cycle rf m (fupdate cf ⟨0, 1⟩ ⟨0, 0⟩) (tr ++ [⟨0, 0⟩])).1
  refine ⟨main, ?_, by decide⟩
  show greedyLoop ⟨0, 0⟩ ⟨0, 4⟩ (cellCount g15 + 1)
      ((cellCount g15 + 1) * (cellCount g15 + 1))
      ⟨g15, [⟨0, 0⟩], {(⟨0, 0⟩ : Pos)}, fun _ => none, []⟩ = none
  exact main _ _ _ _

/-! ## Path reconstruction produces clean parent chains (towards claim C4) -/

/-- Invariant preservation along a `foldl`, when the step only needs to
preserve the invariant for elements of the list being folded. -/
theorem foldl_preserve_mem {σ α : Type} {P : σ → Prop} {f : σ → α → σ} :
    ∀ (l : List α), (∀ s x, x ∈ l → P s → P (f s x)) →
      ∀ (s : σ), P s → P (l.foldl f s)
  | [], _, _, hs => hs
  | x :: l, h, s, hs =>
    foldl_preserve_mem l (fun s y hy => h s y (List.mem_cons_of_mem _ hy)) (f s x)
      (h s x (List.mem_cons_self _ _) hs)

/-- Everything `reconstructPath` promises about a successfully rebuilt path:
it is nonempty, goes from `start` to `cur`, consecutive entries are parent
links, and no position repeats. -/
theorem reconstruct_props (parent : Pos → Option Pos) (start : Pos) :
    ∀ (fuel : Nat) (cur : Pos) (L : List Pos),
      reconstructPath parent start fuel cur = some L →
      L ≠ [] ∧ L.head? = some start ∧ L.getLast? = some cur ∧
        List.Chain' (fun a b => parent b = some a) L ∧ L.Nodup := by
  intro fuel
  induction fuel with
  | zero => intro cur L h; simp [reconstructPath] at h
  | succ n ih =>
    intro cur L h
    rw [reconstructPath] at h
    split at h
    · rename_i hcur
      subst hcur
      simp only [Option.some_inj] at h
      subst h
      refine ⟨by simp, rfl, rfl, by simp, by simp⟩
    · rename_i hne
      rcases hp : parent cur with _ | p <;> rw [hp] at h
      · simp at h
      · rw [Option.map_eq_some'] at h
        obtain ⟨L0, hL0, rfl⟩ := h
        obtain ⟨hne0, hhead, hlast, hchain, hnodup⟩ := ih p L0 hL0
        have hcurnot : cur ∉ L0 := by
          intro hmem
          obtain ⟨⟨t, ht⟩, hget⟩ := List.mem_iff_get.mp hmem
          rcases Nat.eq_zero_or_pos t with rfl | htpos
          · apply hne
            rw [← hget]
            rcases L0 with _ | ⟨a, L1⟩
            · simp at ht
            · have ha : a = start := by simpa using hhead
              simpa using ha
          · have hchain2 := List.chain'_iff_get.mp hchain (t - 1) (by omega)
            have hfin : (⟨t - 1 + 1, by omega⟩ : Fin L0.length) = ⟨t, ht⟩ :=
              Fin.ext (show t - 1 + 1 = t by omega)
            rw [hfin, hget, hp] at hchain2
            have hgetlast : L0.get ⟨L0.length - 1, by omega⟩ = p := by
              have h1 := List.getLast?_eq_get? L0
              rw [hlast] at h1
              have h2 := h1.symm
              rw [List.get?_eq_getElem?, List.getElem?_eq_some_iff] at h2
              obtain ⟨hh, hv⟩ := h2
              exact hv
            have heq : L0.get ⟨t - 1, by omega⟩ =
                L0.get ⟨L0.length - 1, by omega⟩ := by
              rw [hgetlast]
              exact (Option.some_inj.mp hchain2).symm
            have := List.Nodup.get_inj_iff hnodup |>.mp heq
            simp only [Fin.mk.injEq] at this
            omega
        refine ⟨by simp, ?_, by simp [List.getLast?_concat], ?_, ?_⟩
        · rcases L0 with _ | ⟨a, L1⟩
          · simp at hne0
          · simpa using hhead
        · rw [List.chain'_append]
          refine ⟨hchain, by simp, ?_⟩
          intro x hx y hy
          rw [Option.mem_def] at hx hy
          simp only [List.head?_cons, Option.some_inj] at hy
          rw [hlast] at hx
          simp only [Option.some_inj] at hx
          subst hx
          subst hy
          exact hp
        · rw [List.nodup_append]
          exact ⟨hnodup, by simp, by simpa using hcurnot⟩

/-! ## Cell types at located positions, and neighbor steps -/

theorem cellsRowMajor_lookup (g : Grid) (pc : Pos × CellType)
    (h : pc ∈ cellsRowMajor g) : cellTypeAt g pc.1 = some pc.2 := by
  unfold cellsRowMajor at h
  rw [List.mem_flatMap] at h
  obtain ⟨rp, hrp, hmem⟩ := h
  rw [List.mem_map] at hmem
  obtain ⟨cp, hcp, rfl⟩ := hmem
  have h1 : g.get? rp.1 = some rp.2 := List.mem_enum_iff_get?.mp hrp
  have h2 : rp.2.get? cp.1 = some cp.2 := List.mem_enum_iff_get?.mp hcp
  unfold cellTypeAt
  have hr : ¬ (((rp.1 : Int)) < 0 ∨ ((cp.1 : Int)) < 0) := by omega
  rw [if_neg hr]
  simp only [Int.toNat_natCast]
  rw [h1]
  simp only [Option.some_bind]
  rw [h2]
  rfl

theorem findStartAndEnd_start_type (g : Grid) (s : Pos)
    (h : (findStartAndEnd g).1 = some s) : cellTypeAt g s = some CellType.start := by
  rw [findStartAndEnd_eq_lastOfType] at h
  change lastOfType g CellType.start = some s at h
  unfold lastOfType at h
  rw [Option.map_eq_some'] at h
  obtain ⟨pc, hpc, rfl⟩ := h
  have hmem := List.mem_of_mem_getLast? hpc
  rw [List.mem_filter] at hmem
  have htype : pc.2 = CellType.start := by simpa using hmem.2
  have := cellsRowMajor_lookup g pc hmem.1
  rwa [htype] at this

theorem findStartAndEnd_end_type (g : Grid) (e : Pos)
    (h : (findStartAndEnd g).2 = some e) : cellTypeAt g e = some CellType.«end» := by
  rw [findStartAndEnd_eq_lastOfType] at h
  change lastOfType g CellType.«end» = some e at h
  unfold lastOfType at h
  rw [Option.map_eq_some'] at h
  obtain ⟨pc, hpc, rfl⟩ := h
  have hmem := List.mem_of_mem_getLast? hpc
  rw [List.mem_filter] at hmem
  have htype : pc.2 = CellType.«end» := by simpa using hmem.2
  have := cellsRowMajor_lookup g pc hmem.1
  rwa [htype] at this

/-- A neighbor produced by `getNeighbors` is one cardinal step away, on a
passable (existing, non-wall) cell, inside the grid bounds. -/
theorem mem_getNeighbors_step (g : Grid) (a b : Pos) (h : b ∈ getNeighbors g a) :
    cardinalStep a b ∧ passable (cellTypeAt g b) = true := by
  unfold getNeighbors at h
  rw [List.mem_filterMap] at h
  obtain ⟨dir, hdir, hsome⟩ := h
  simp only [directions, List.mem_cons, List.not_mem_nil, or_false] at hdir
  have hcond : ∀ (d : Pos),
      (if 0 ≤ a.row + d.row ∧ a.row + d.row < (gridRows g : Int) ∧
          0 ≤ a.col + d.col ∧ a.col + d.col < (gridCols g : Int) ∧
          passable (cellTypeAt g ⟨a.row + d.row, a.col + d.col⟩) = true
        then some (⟨a.row + d.row, a.col + d.col⟩ : Pos) else none) = some b →
      b = ⟨a.row + d.row, a.col + d.col⟩ ∧
        passable (cellTypeAt g ⟨a.row + d.row, a.col + d.col⟩) = true := by
    intro d hd
    split at hd
    · rename_i hc
      exact ⟨(Option.some_inj.mp hd).symm, hc.2.2.2.2⟩
    · exact absurd hd (by simp)
  rcases hdir with rfl | rfl | rfl | rfl <;>
    obtain ⟨rfl, hpass⟩ := hcond _ hsome <;>
    refine ⟨?_, hpass⟩ <;> unfold cardinalStep <;> simp <;> omega

/-- `passable = true` rules out wall cells. -/
theorem passable_ne_wall (o : Option CellType) (h : passable o = true) :
    o ≠ some CellType.wall := by
  intro heq
  rw [heq] at h
  simp [passable] at h

/-! ## Parent maps only ever record neighbor steps (towards claim C4) -/

theorem bfsEnqueue_parent_ok (g : Grid) (s : BfsState) (cur : Pos)
    (hg : s.grid = g)
    (hs : ∀ x y, s.parent y = some x →
      cardinalStep x y ∧ passable (cellTypeAt g y) = true) :
    (bfsEnqueue s cur).grid = g ∧
      ∀ x y, (bfsEnqueue s cur).parent y = some x →
        cardinalStep x y ∧ passable (cellTypeAt g y) = true := by
  unfold bfsEnqueue
  rw [hg]
  apply foldl_preserve_mem (P := fun (t : BfsState) => t.grid = g ∧
    ∀ x y, t.parent y = some x →
      cardinalStep x y ∧ passable (cellTypeAt g y) = true)
  · intro t nb hnb ⟨htg, htp⟩
    split
    · exact ⟨htg, htp⟩
    · refine ⟨htg, ?_⟩
      intro x y hxy
      simp only [fupdate] at hxy
      by_cases hy : y = nb
      · rw [if_pos hy] at hxy
        subst hy
        have := mem_getNeighbors_step g cur y hnb
        exact ⟨(Option.some_inj.mp hxy) ▸ this.1, this.2⟩
      · rw [if_neg hy] at hxy
        exact htp x y hxy
  · exact ⟨hg, hs⟩

theorem bfsLoop_path (g : Grid) (a b : Pos) (rf : Nat) :
    ∀ (fuel : Nat) (s : BfsState) (r : AlgorithmResult) (g2 : Grid),
      s.grid = g →
      (∀ x y, s.parent y = some x →
        cardinalStep x y ∧ passable (cellTypeAt g y) = true) →
      bfsLoop a b rf fuel s = some (r, g2) →
      (r.success = false → r.path = []) ∧
      (r.success = true → ∃ pm : Pos → Option Pos,
        (∀ x y, pm y = some x →
          cardinalStep x y ∧ passable (cellTypeAt g y) = true) ∧
        reconstructPath pm a rf b = some r.path) := by
  intro fuel
  induction fuel with
  | zero => intro s r g2 _ _ h; simp [bfsLoop] at h
  | succ n ih =>
    intro s r g2 hg hp h
    rw [bfsLoop] at h
    rcases hq : s.queue with _ | ⟨current, rest⟩ <;> rw [hq] at h
    · simp only [Option.some_inj, Prod.mk.injEq] at h
      rw [← h.1]
      exact ⟨fun _ => rfl, fun hfalse => by simp at hfalse⟩
    · dsimp only at h
      split at h
      · rcases hr : reconstructPath s.parent a rf b with _ | p <;> rw [hr] at h
        · simp at h
        · simp only [Option.some_inj, Prod.mk.injEq] at h
          rw [← h.1]
          refine ⟨fun hfalse => by simp at hfalse, fun _ => ⟨s.parent, hp, hr⟩⟩
      · have step := bfsEnqueue_parent_ok g
          { s with queue := rest,
                   visitedPositions := s.visitedPositions ++ [current] }
          current hg hp
        exact ih _ _ _ step.1 step.2 h

theorem dfsPush_parent_ok (g : Grid) (s : DfsState) (cur : Pos)
    (hg : s.grid = g)
    (hs : ∀ x y, s.parent y = some x →
      cardinalStep x y ∧ passable (cellTypeAt g y) = true) :
    (dfsPush s cur).grid = g ∧
      ∀ x y, (dfsPush s cur).parent y = some x →
        cardinalStep x y ∧ passable (cellTypeAt g y) = true := by
  unfold dfsPush
  rw [hg]
  apply foldl_preserve_mem (P := fun (t : DfsState) => t.grid = g ∧
    ∀ x y, t.parent y = some x →
      cardinalStep x y ∧ passable (cellTypeAt g y) = true)
  · intro t nb hnb ⟨htg, htp⟩
    split
    · exact ⟨htg, htp⟩
    · refine ⟨htg, ?_⟩
      intro x y hxy
      simp only [fupdate] at hxy
      by_cases hy : y = nb
      · rw [if_pos hy] at hxy
        subst hy
        have := mem_getNeighbors_step g cur y hnb
        exact ⟨(Option.some_inj.mp hxy) ▸ this.1, this.2⟩
      · rw [if_neg hy] at hxy
        exact htp x y hxy
  · exact ⟨hg, hs⟩

theorem dfsLoop_path (g : Grid) (a b : Pos) (rf : Nat) :
    ∀ (fuel : Nat) (s : DfsState) (r : AlgorithmResult) (g2 : Grid),
      s.grid = g →
      (∀ x y, s.parent y = some x →
        cardinalStep x y ∧ passable (cellTypeAt g y) = true) →
      dfsLoop a b rf fuel s = some (r, g2) →
      (r.success = false → r.path = []) ∧
      (r.success = true → ∃ pm : Pos → Option Pos,
        (∀ x y, pm y = some x →
          cardinalStep x y ∧ passable (cellTypeAt g y) = true) ∧
        reconstructPath pm a rf b = some r.path) := by
  intro fuel
  induction fuel with
  | zero => intro s r g2 _ _ h; simp [dfsLoop] at h
  | succ n ih =>
    intro s r g2 hg hp h
    rw [dfsLoop] at h
    rcases hq : s.stack with _ | ⟨current, rest⟩ <;> rw [hq] at h
    · simp only [Option.some_inj, Prod.mk.injEq] at h
      rw [← h.1]
      exact ⟨fun _ => rfl, fun hfalse => by simp at hfalse⟩
    · dsimp only at h
      split at h
      · rcases hr : reconstructPath s.parent a rf b with _ | p <;> rw [hr] at h
        · simp at h
        · simp only [Option.some_inj, Prod.mk.injEq] at h
          rw [← h.1]
          refine ⟨fun hfalse => by simp at hfalse, fun _ => ⟨s.parent, hp, hr⟩⟩
      · have step := dfsPush_parent_ok g
          { s with stack := rest,
                   visitedPositions := s.visitedPositions ++ [current] }
          current hg hp
        exact ih _ _ _ step.1 step.2 h

theorem dijkstraRelax_parent_ok (g : Grid) (s : DijkstraState) (cur : Pos)
    (hg : s.grid = g)
    (hs : ∀ x y, s.parent y = some x →
      cardinalStep x y ∧ passable (cellTypeAt g y) = true) :
    (dijkstraRelax s cur).grid = g ∧
      ∀ x y, (dijkstraRelax s cur).parent y = some x →
        cardinalStep x y ∧ passable (cellTypeAt g y) = true := by
  unfold dijkstraRelax
  rw [hg]
  apply foldl_preserve_mem (P := fun (t : DijkstraState) => t.grid = g ∧
    ∀ x y, t.parent y = some x →
      cardinalStep x y ∧ passable (cellTypeAt g y) = true)
  · intro t nb hnb ⟨htg, htp⟩
    split
    · exact ⟨htg, htp⟩
    · dsimp only
      split
      · refine ⟨htg, ?_⟩
        intro x y hxy
        simp only [fupdate] at hxy
        by_cases hy : y = nb
        · rw [if_pos hy] at hxy
          subst hy
          have := mem_getNeighbors_step g cur y hnb
          exact ⟨(Option.some_inj.mp hxy) ▸ this.1, this.2⟩
        · rw [if_neg hy] at hxy
          exact htp x y hxy
      · exact ⟨htg, htp⟩
  · exact ⟨hg, hs⟩

theorem dijkstraLoop_path (g : Grid) (a b : Pos) (rf : Nat) :
    ∀ (fuel : Nat) (s : DijkstraState) (r : AlgorithmResult) (g2 : Grid),
      s.grid = g →
      (∀ x y, s.parent y = some x →
        cardinalStep x y ∧ passable (cellTypeAt g y) = true) →
      dijkstraLoop a b rf fuel s = some (r, g2) →
      (r.success = false → r.path = []) ∧
      (r.success = true → ∃ pm : Pos → Option Pos,
        (∀ x y, pm y = some x →
          cardinalStep x y ∧ passable (cellTypeAt g y) = true) ∧
        reconstructPath pm a rf b = some r.path) := by
  intro fuel
  induction fuel with
  | zero => intro s r g2 _ _ h; simp [dijkstraLoop] at h
  | succ n ih =>
    intro s r g2 hg hp h
    rw [dijkstraLoop] at h
    rcases hq : getMinDistance s with _ | current <;> rw [hq] at h
    · simp only [Option.some_inj, Prod.mk.injEq] at h
      rw [← h.1]
      exact ⟨fun _ => rfl, fun hfalse => by simp at hfalse⟩
    · dsimp only at h
      split at h
      · rcases hr : reconstructPath s.parent a rf b with _ | p <;> rw [hr] at h
        · simp at h
        · simp only [Option.some_inj, Prod.mk.injEq] at h
          rw [← h.1]
          refine ⟨fun hfalse => by simp at hfalse, fun _ => ⟨s.parent, hp, hr⟩⟩
      · have step := dijkstraRelax_parent_ok g
          { s with visited := insert current s.visited,
                   visitedPositions := s.visitedPositions ++ [current] }
          current hg hp
        exact ih _ _ _ step.1 step.2 h

theorem aStarUpdate_parent_ok (g : Grid) (e : Pos) (s : AStarState) (cur : Pos)
    (hg : s.grid = g)
    (hs : ∀ x y, s.parent y = some x →
      cardinalStep x y ∧ passable (cellTypeAt g y) = true) :
    (aStarUpdate e s cur).grid = g ∧
      ∀ x y, (aStarUpdate e s cur).parent y = some x →
        cardinalStep x y ∧ passable (cellTypeAt g y) = true := by
  unfold aStarUpdate
  rw [hg]
  apply foldl_preserve_mem (P := fun (t : AStarState) => t.grid = g ∧
    ∀ x y, t.parent y = some x →
      cardinalStep x y ∧ passable (cellTypeAt g y) = true)
  · intro t nb hnb ⟨htg, htp⟩
    have hupd : ∀ x y, (fupdate t.parent nb cur) y = some x →
        cardinalStep x y ∧ passable (cellTypeAt g y) = true := by
      intro x y hxy
      simp only [fupdate] at hxy
      by_cases hy : y = nb
      · rw [if_pos hy] at hxy
        subst hy
        have := mem_getNeighbors_step g cur y hnb
        exact ⟨(Option.some_inj.mp hxy) ▸ this.1, this.2⟩
      · rw [if_neg hy] at hxy
        exact htp x y hxy
    split
    · exact ⟨htg, htp⟩
    · dsimp only
      split
      · exact ⟨htg, hupd⟩
      · split
        · exact ⟨htg, htp⟩
        · exact ⟨htg, hupd⟩
  · exact ⟨hg, hs⟩

theorem aStarLoop_path (g : Grid) (a b : Pos) (rf : Nat) :
    ∀ (fuel : Nat) (s : AStarState) (r : AlgorithmResult) (g2 : Grid),
      s.grid = g →
      (∀ x y, s.parent y = some x →
        cardinalStep x y ∧ passable (cellTypeAt g y) = true) →
      aStarLoop a b rf fuel s = some (r, g2) →
      (r.success = false → r.path = []) ∧
      (r.success = true → ∃ pm : Pos → Option Pos,
        (∀ x y, pm y = some x →
          cardinalStep x y ∧ passable (cellTypeAt g y) = true) ∧
        reconstructPath pm a rf b = some r.path) := by
  intro fuel
  induction fuel with
  | zero => intro s r g2 _ _ h; simp [aStarLoop] at h
  | succ n ih =>
    intro s r g2 hg hp h
    rw [aStarLoop] at h
    rcases hq : s.openSet with _ | ⟨x0, xs⟩ <;> rw [hq] at h
    · simp only [Option.some_inj, Prod.mk.injEq] at h
      rw [← h.1]
      exact ⟨fun _ => rfl, fun hfalse => by simp at hfalse⟩
    · rcases hm : lowestFScore s.openSet s.fScore with _ | current <;>
        rw [hq] at hm <;> rw [hm] at h
      · simp at h
      · dsimp only at h
        split at h
        · rcases hr : reconstructPath s.parent a rf b with _ | p <;> rw [hr] at h
          · simp at h
          · simp only [Option.some_inj, Prod.mk.injEq] at h
            rw [← h.1]
            refine ⟨fun hfalse => by simp at hfalse, fun _ => ⟨s.parent, hp, hr⟩⟩
        · have step := aStarUpdate_parent_ok g b
            { s with openSet := (x0 :: xs).erase current,
                     closedSet := insert current s.closedSet,
                     visitedPositions := s.visitedPositions ++ [current] }
            current hg hp
          exact ih _ _ _ step.1 step.2 h

theorem greedyCandidates_card (cur nb : Pos) (h : nb ∈ greedyCandidates cur) :
    cardinalStep cur nb := by
  simp only [greedyCandidates, List.mem_cons, List.not_mem_nil, or_false] at h
  rcases h with rfl | rfl | rfl | rfl <;> unfold cardinalStep <;> simp <;> omega

theorem greedyExpand_parent_ok (g : Grid) (s : GreedyState) (cur : Pos)
    (hg : s.grid = g)
    (hs : ∀ x y, s.cameFrom y = some x →
      cardinalStep x y ∧ passable (cellTypeAt g y) = true) :
    (greedyExpand s cur).grid = g ∧
      ∀ x y, (greedyExpand s cur).cameFrom y = some x →
        cardinalStep x y ∧ passable (cellTypeAt g y) = true := by
  unfold greedyExpand
  apply foldl_preserve_mem (P := fun (t : GreedyState) => t.grid = g ∧
    ∀ x y, t.cameFrom y = some x →
      cardinalStep x y ∧ passable (cellTypeAt g y) = true)
  · intro t nb hnb ⟨htg, htp⟩
    split
    · exact ⟨htg, htp⟩
    · split
      · exact ⟨htg, htp⟩
      · rename_i hcond hopen
        refine ⟨htg, ?_⟩
        intro x y hxy
        simp only [fupdate] at hxy
        by_cases hy : y = nb
        · rw [if_pos hy] at hxy
          subst hy
          push_neg at hcond
          have hpass : passable (cellTypeAt g y) = true := by
            have := hcond.2.2.2.2.1
            rw [htg] at this
            exact Bool.not_eq_false _ |>.mp this
          exact ⟨(Option.some_inj.mp hxy) ▸ greedyCandidates_card cur y hnb, hpass⟩
        · rw [if_neg hy] at hxy
          exact htp x y hxy
  · exact ⟨hg, hs⟩

theorem greedyLoop_path (g : Grid) (a b : Pos) (rf : Nat) :
    ∀ (fuel : Nat) (s : GreedyState) (r : AlgorithmResult) (g2 : Grid),
      s.grid = g →
      (∀ x y, s.cameFrom y = some x →
        cardinalStep x y ∧ passable (cellTypeAt g y) = true) →
      greedyLoop a b rf fuel s = some (r, g2) →
      (r.success = false → r.path = []) ∧
      (r.success = true → ∃ pm : Pos → Option Pos,
        (∀ x y, pm y = some x →
          cardinalStep x y ∧ passable (cellTypeAt g y) = true) ∧
        reconstructPath pm a rf b = some r.path) := by
  intro fuel
  induction fuel with
  | zero => intro s r g2 _ _ h; simp [greedyLoop] at h
  | succ n ih =>
    intro s r g2 hg hp h
    rw [greedyLoop] at h
    rcases hq : s.openSet with _ | ⟨x0, xs⟩ <;> rw [hq] at h
    · simp only [Option.some_inj, Prod.mk.injEq] at h
      rw [← h.1]
      exact ⟨fun _ => rfl, fun hfalse => by simp at hfalse⟩
    · dsimp only at h
      split at h
      · rcases hr : reconstructPath s.cameFrom a rf b with _ | p <;> rw [hr] at h
        · simp at h
        · simp only [Option.some_inj, Prod.mk.injEq] at h
          rw [← h.1]
          refine ⟨fun hfalse => by simp at hfalse, fun _ => ⟨s.cameFrom, hp, hr⟩⟩
      · have step := greedyExpand_parent_ok g
          ⟨s.grid,
            (x0 :: xs).eraseIdx (minHeuristicIndex (fun p => heuristic p b) (x0 :: xs)),
            s.closedSet, s.cameFrom,
            s.visited ++
              [(x0 :: xs).getD (minHeuristicIndex (fun p => heuristic p b) (x0 :: xs)) ⟨0, 0⟩]⟩
          ((x0 :: xs).getD (minHeuristicIndex (fun p => heuristic p b) (x0 :: xs)) ⟨0, 0⟩)
          hg hp
        exact ih _ _ _ step.1 step.2 h

/-- A reconstructed path whose parent map only records neighbor steps, rooted
at the located start, is a valid path in the spec sense. -/
theorem path_valid_of_reconstruct (g : Grid) (s e : Pos) (L : List Pos) (rf : Nat)
    (pm : Pos → Option Pos)
    (hpm : ∀ x y, pm y = some x →
      cardinalStep x y ∧ passable (cellTypeAt g y) = true)
    (hrec : reconstructPath pm s rf e = some L)
    (hstype : cellTypeAt g s = some CellType.start) :
    validPath g s e L := by
  obtain ⟨hne, hhead, hlast, hchain, hnodup⟩ := reconstruct_props pm s rf e L hrec
  refine ⟨hhead, hlast, ?_, hnodup, ?_⟩
  · exact List.Chain'.imp (fun a b hab => (hpm a b hab).1) hchain
  · intro p hp
    obtain ⟨⟨i, hi⟩, hget⟩ := List.mem_iff_get.mp hp
    rcases Nat.eq_zero_or_pos i with rfl | hipos
    · have hps : p = s := by
        rcases L with _ | ⟨x, L1⟩
        · simp at hi
        · have hx : x = s := by simpa using hhead
          rw [← hget]
          simpa using hx
      rw [hps, hstype]
      simp
    · have hch := List.chain'_iff_get.mp hchain (i - 1) (by omega)
      have hfin : (⟨i - 1 + 1, by omega⟩ : Fin L.length) = ⟨i, hi⟩ :=
        Fin.ext (show i - 1 + 1 = i by omega)
      rw [hfin, hget] at hch
      exact passable_ne_wall _ (hpm _ _ hch).2

/-- Claim C4: for every well-formed grid and every strategy, a successful
result carries a valid path (starts at the located start, ends at the located
end, consecutive positions one cardinal step apart, no repeats, no walls),
and a failed result carries an empty path. -/
theorem claim_C4_valid_paths :
    (∀ g r g2, wellFormed g → bfs g = some (r, g2) →
      (r.success = true →
        ∃ s e, findStartAndEnd g = (some s, some e) ∧ validPath g s e r.path) ∧
      (r.success = false → r.path = [])) ∧
    (∀ g r g2, wellFormed g → dfs g = some (r, g2) →
      (r.success = true →
        ∃ s e, findStartAndEnd g = (some s, some e) ∧ validPath g s e r.path) ∧
      (r.success = false → r.path = [])) ∧
    (∀ g r g2, wellFormed g → dijkstra g = some (r, g2) →
      (r.success = true →
        ∃ s e, findStartAndEnd g = (some s, some e) ∧ validPath g s e r.path) ∧
      (r.success = false → r.path = [])) ∧
    (∀ g r g2, wellFormed g → aStar g = some (r, g2) →
      (r.success = true →
        ∃ s e, findStartAndEnd g = (some s, some e) ∧ validPath g s e r.path) ∧
      (r.success = false → r.path = [])) ∧
    (∀ g r g2, wellFormed g → greedyBestFirst g = some (r, g2) →
      (r.success = true →
        ∃ s e, findStartAndEnd g = (some s, some e) ∧ validPath g s e r.path) ∧
      (r.success = false → r.path = [])) := by
  refine ⟨?_, ?_, ?_, ?_, ?_⟩
  · intro g r g2 hwf h
    unfold bfs at h
    rcases hf : findStartAndEnd g with ⟨_ | s, _ | e⟩
    · rw [hf] at h
      have h2 := Option.some_inj.mp h
      have hr := congrArg Prod.fst h2
      simp only at hr
      rw [← hr]
      exact ⟨fun hcontra => by simp at hcontra, fun _ => rfl⟩
    · rw [hf] at h
      have h2 := Option.some_inj.mp h
      have hr := congrArg Prod.fst h2
      simp only at hr
      rw [← hr]
      exact ⟨fun hcontra => by simp at hcontra, fun _ => rfl⟩
    · rw [hf] at h
      have h2 := Option.some_inj.mp h
      have hr := congrArg Prod.fst h2
      simp only at hr
      rw [← hr]
      exact ⟨fun hcontra => by simp at hcontra, fun _ => rfl⟩
    · rw [hf] at h
      have hloop := bfsLoop_path g s e (cellCount g + 1) (cellCount g + 1) _ r g2 rfl
        (fun x y hxy => by simp at hxy) h
      refine ⟨?_, hloop.1⟩
      intro hsucc
      obtain ⟨pm, hpm, hrec⟩ := hloop.2 hsucc
      have hstype := findStartAndEnd_start_type g s (by rw [hf])
      exact ⟨s, e, rfl, path_valid_of_reconstruct g s e r.path _ pm hpm hrec hstype⟩
  · intro g r g2 hwf h
    unfold dfs at h
    rcases hf : findStartAndEnd g with ⟨_ | s, _ | e⟩
    · rw [hf] at h
      have h2 := Option.some_inj.mp h
      have hr := congrArg Prod.fst h2
      simp only at hr
      rw [← hr]
      exact ⟨fun hcontra => by simp at hcontra, fun _ => rfl⟩
    · rw [hf] at h
      have h2 := Option.some_inj.mp h
      have hr := congrArg Prod.fst h2
      simp only at hr
      rw [← hr]
      exact ⟨fun hcontra => by simp at hcontra, fun _ => rfl⟩
    · rw [hf] at h
      have h2 := Option.some_inj.mp h
      have hr := congrArg Prod.fst h2
      simp only at hr
      rw [← hr]
      exact ⟨fun hcontra => by simp at hcontra, fun _ => rfl⟩
    · rw [hf] at h
      have hloop := dfsLoop_path g s e (cellCount g + 1) (cellCount g + 1) _ r g2 rfl
        (fun x y hxy => by simp at hxy) h
      refine ⟨?_, hloop.1⟩
      intro hsucc
      obtain ⟨pm, hpm, hrec⟩ := hloop.2 hsucc
      have hstype := findStartAndEnd_start_type g s (by rw [hf])
      exact ⟨s, e, rfl, path_valid_of_reconstruct g s e r.path _ pm hpm hrec hstype⟩
  · intro g r g2 hwf h
    unfold dijkstra at h
    rcases hf : findStartAndEnd g with ⟨_ | s, _ | e⟩
    · rw [hf] at h
      have h2 := Option.some_inj.mp h
      have hr := congrArg Prod.fst h2
      simp only at hr
      rw [← hr]
      exact ⟨fun hcontra => by simp at hcontra, fun _ => rfl⟩
    · rw [hf] at h
      have h2 := Option.some_inj.mp h
      have hr := congrArg Prod.fst h2
      simp only at hr
      rw [← hr]
      exact ⟨fun hcontra => by simp at hcontra, fun _ => rfl⟩
    · rw [hf] at h
      have h2 := Option.some_inj.mp h
      have hr := congrArg Prod.fst h2
      simp only at hr
      rw [← hr]
      exact ⟨fun hcontra => by simp at hcontra, fun _ => rfl⟩
    · rw [hf] at h
      have hloop := dijkstraLoop_path g s e (cellCount g + 1) (cellCount g + 1) _ r g2 rfl
        (fun x y hxy => by simp at hxy) h
      refine ⟨?_, hloop.1⟩
      intro hsucc
      obtain ⟨pm, hpm, hrec⟩ := hloop.2 hsucc
      have hstype := findStartAndEnd_start_type g s (by rw [hf])
      exact ⟨s, e, rfl, path_valid_of_reconstruct g s e r.path _ pm hpm hrec hstype⟩
  · intro g r g2 hwf h
    unfold aStar at h
    rcases hf : findStartAndEnd g with ⟨_ | s, _ | e⟩
    · rw [hf] at h
      have h2 := Option.some_inj.mp h
      have hr := congrArg Prod.fst h2
      simp only at hr
      rw [← hr]
      exact ⟨fun hcontra => by simp at hcontra, fun _ => rfl⟩
    · rw [hf] at h
      have h2 := Option.some_inj.mp h
      have hr := congrArg Prod.fst h2
      simp only at hr
      rw [← hr]
      exact ⟨fun hcontra => by simp at hcontra, fun _ => rfl⟩
    · rw [hf] at h
      have h2 := Option.some_inj.mp h
      have hr := congrArg Prod.fst h2
      simp only at hr
      rw [← hr]
      exact ⟨fun hcontra => by simp at hcontra, fun _ => rfl⟩
    · rw [hf] at h
      have hloop := aStarLoop_path g s e (cellCount g + 1) (cellCount g + 1) _ r g2 rfl
        (fun x y hxy => by simp at hxy) h
      refine ⟨?_, hloop.1⟩
      intro hsucc
      obtain ⟨pm, hpm, hrec⟩ := hloop.2 hsucc
      have hstype := findStartAndEnd_start_type g s (by rw [hf])
      exact ⟨s, e, rfl, path_valid_of_reconstruct g s e r.path _ pm hpm hrec hstype⟩
  · intro g r g2 hwf h
    unfold greedyBestFirst at h
    rw [greedyFindStartEnd_eq g hwf.2.2.1] at h
    rcases hf : findStartAndEnd g with ⟨_ | s, _ | e⟩
    · rw [hf] at h
      have h2 := Option.some_inj.mp h
      have hr := congrArg Prod.fst h2
      simp only at hr
      rw [← hr]
      exact ⟨fun hcontra => by simp at hcontra, fun _ => rfl⟩
    · rw [hf] at h
      have h2 := Option.some_inj.mp h
      have hr := congrArg Prod.fst h2
      simp only at hr
      rw [← hr]
      exact ⟨fun hcontra => by simp at hcontra, fun _ => rfl⟩
    · rw [hf] at h
      have h2 := Option.some_inj.mp h
      have hr := congrArg Prod.fst h2
      simp only at hr
      rw [← hr]
      exact ⟨fun hcontra => by simp at hcontra, fun _ => rfl⟩
    · rw [hf] at h
      have hloop := greedyLoop_path g s e (cellCount g + 1) ((cellCount g + 1) * (cellCount g + 1)) _ r g2 rfl
        (fun x y hxy => by simp at hxy) h
      refine ⟨?_, hloop.1⟩
      intro hsucc
      obtain ⟨pm, hpm, hrec⟩ := hloop.2 hsucc
      have hstype := findStartAndEnd_start_type g s (by rw [hf])
      exact ⟨s, e, rfl, path_valid_of_reconstruct g s e r.path _ pm hpm hrec hstype⟩

theorem claim_C4_witness :
    (wellFormed g13 ∧ greedyBestFirst g13 =
      some (⟨[⟨0, 0⟩, ⟨0, 1⟩, ⟨0, 2⟩], [⟨0, 0⟩, ⟨0, 1⟩, ⟨0, 2⟩], true⟩, g13)) ∧
    (((⟨[⟨0, 0⟩, ⟨0, 1⟩, ⟨0, 2⟩], [⟨0, 0⟩, ⟨0, 1⟩, ⟨0, 2⟩], true⟩ :
        AlgorithmResult).success = true →
      ∃ s e, findStartAndEnd g13 = (some s, some e) ∧
        validPath g13 s e [⟨0, 0⟩, ⟨0, 1⟩, ⟨0, 2⟩]) ∧
    ((⟨[⟨0, 0⟩, ⟨0, 1⟩, ⟨0, 2⟩], [⟨0, 0⟩, ⟨0, 1⟩, ⟨0, 2⟩], true⟩ :
        AlgorithmResult).success = false → [⟨0, 0⟩, ⟨0, 1⟩, ⟨0, 2⟩] = ([] : List Pos))) :=
  ⟨⟨by decide, by decide⟩,
    claim_C4_valid_paths.2.2.2.2 g13
      ⟨[⟨0, 0⟩, ⟨0, 1⟩, ⟨0, 2⟩], [⟨0, 0⟩, ⟨0, 1⟩, ⟨0, 2⟩], true⟩ g13
      (by decide) (by decide)⟩

/-! ## The first expanded position is the start (claim C10) -/

theorem head?_append_singleton {α : Type} (l : List α) (x : α) (h : l ≠ []) :
    (l ++ [x]).head? = l.head? := by
  rcases l with _ | ⟨a, l⟩
  · exact absurd rfl h
  · rfl

theorem bfsEnqueue_visitedPositions (s : BfsState) (c : Pos) :
    (bfsEnqueue s c).visitedPositions = s.visitedPositions := by
  unfold bfsEnqueue
  apply foldl_preserve
    (P := fun (t : BfsState) => t.visitedPositions = s.visitedPositions) _ _ s rfl
  intro t x ht
  dsimp only
  repeat' split
  all_goals simpa using ht

theorem dfsPush_visitedPositions (s : DfsState) (c : Pos) :
    (dfsPush s c).visitedPositions = s.visitedPositions := by
  unfold dfsPush
  apply foldl_preserve
    (P := fun (t : DfsState) => t.visitedPositions = s.visitedPositions) _ _ s rfl
  intro t x ht
  dsimp only
  repeat' split
  all_goals simpa using ht

theorem dijkstraRelax_visitedPositions (s : DijkstraState) (c : Pos) :
    (dijkstraRelax s c).visitedPositions = s.visitedPositions := by
  unfold dijkstraRelax
  apply foldl_preserve
    (P := fun (t : DijkstraState) => t.visitedPositions = s.visitedPositions) _ _ s rfl
  intro t x ht
  dsimp only
  repeat' split
  all_goals simpa using ht

theorem greedyExpand_visited (s : GreedyState) (c : Pos) :
    (greedyExpand s c).visited = s.visited := by
  unfold greedyExpand
  apply foldl_preserve
    (P := fun (t : GreedyState) => t.visited = s.visited) _ _ s rfl
  intro t x ht
  dsimp only
  repeat' split
  all_goals simpa using ht

theorem bfsLoop_visited_head (a b : Pos) (rf : Nat) :
    ∀ (fuel : Nat) (s : BfsState) (r : AlgorithmResult) (g2 : Grid),
      s.visitedPositions ≠ [] → bfsLoop a b rf fuel s = some (r, g2) →
      r.visited.head? = s.visitedPositions.head? := by
  intro fuel
  induction fuel with
  | zero => intro s r g2 _ h; simp [bfsLoop] at h
  | succ n ih =>
    intro s r g2 hne h
    rw [bfsLoop] at h
    rcases hq : s.queue with _ | ⟨current, rest⟩ <;> rw [hq] at h
    · simp only [Option.some_inj, Prod.mk.injEq] at h
      rw [← h.1]
    · dsimp only at h
      split at h
      · rcases hr : reconstructPath s.parent a rf b with _ | p <;> rw [hr] at h
        · simp at h
        · simp only [Option.some_inj, Prod.mk.injEq] at h
          rw [← h.1]
          exact head?_append_singleton _ _ hne
      · have := ih _ _ _ (by rw [bfsEnqueue_visitedPositions]; simp) h
        rw [this, bfsEnqueue_visitedPositions]
        exact head?_append_singleton _ _ hne

theorem dfsLoop_visited_head (a b : Pos) (rf : Nat) :
    ∀ (fuel : Nat) (s : DfsState) (r : AlgorithmResult) (g2 : Grid),
      s.visitedPositions ≠ [] → dfsLoop a b rf fuel s = some (r, g2) →
      r.visited.head? = s.visitedPositions.head? := by
  intro fuel
  induction fuel with
  | zero => intro s r g2 _ h; simp [dfsLoop] at h
  | succ n ih =>
    intro s r g2 hne h
    rw [dfsLoop] at h
    rcases hq : s.stack with _ | ⟨current, rest⟩ <;> rw [hq] at h
    · simp only [Option.some_inj, Prod.mk.injEq] at h
      rw [← h.1]
    · dsimp only at h
      split at h
      · rcases hr : reconstructPath s.parent a rf b with _ | p <;> rw [hr] at h
        · simp at h
        · simp only [Option.some_inj, Prod.mk.injEq] at h
          rw [← h.1]
          exact head?_append_singleton _ _ hne
      · have := ih _ _ _ (by rw [dfsPush_visitedPositions]; simp) h
        rw [this, dfsPush_visitedPositions]
        exact head?_append_singleton _ _ hne

theorem dijkstraLoop_visited_head (a b : Pos) (rf : Nat) :
    ∀ (fuel : Nat) (s : DijkstraState) (r : AlgorithmResult) (g2 : Grid),
      s.visitedPositions ≠ [] → dijkstraLoop a b rf fuel s = some (r, g2) →
      r.visited.head? = s.visitedPositions.head? := by
  intro fuel
  induction fuel with
  | zero => intro s r g2 _ h; simp [dijkstraLoop] at h
  | succ n ih =>
    intro s r g2 hne h
    rw [dijkstraLoop] at h
    rcases hq : getMinDistance s with _ | current <;> rw [hq] at h
    · simp only [Option.some_inj, Prod.mk.injEq] at h
      rw [← h.1]
    · dsimp only at h
      split at h
      · rcases hr : reconstructPath s.parent a rf b with _ | p <;> rw [hr] at h
        · simp at h
        · simp only [Option.some_inj, Prod.mk.injEq] at h
          rw [← h.1]
          exact head?_append_singleton _ _ hne
      · have := ih _ _ _ (by rw [dijkstraRelax_visitedPositions]; simp) h
        rw [this, dijkstraRelax_visitedPositions]
        exact head?_append_singleton _ _ hne

theorem aStarLoop_visited_head (a b : Pos) (rf : Nat) :
    ∀ (fuel : Nat) (s : AStarState) (r : AlgorithmResult) (g2 : Grid),
      s.visitedPositions ≠ [] → aStarLoop a b rf fuel s = some (r, g2) →
      r.visited.head? = s.visitedPositions.head? := by
  intro fuel
  induction fuel with
  | zero => intro s r g2 _ h; simp [aStarLoop] at h
  | succ n ih =>
    intro s r g2 hne h
    rw [aStarLoop] at h
    rcases hq : s.openSet with _ | ⟨x0, xs⟩ <;> rw [hq] at h
    · simp only [Option.some_inj, Prod.mk.injEq] at h
      rw [← h.1]
    · rcases hm : lowestFScore s.openSet s.fScore with _ | current <;>
        rw [hq] at hm <;> rw [hm] at h
      · simp at h
      · dsimp only at h
        split at h
        · rcases hr : reconstructPath s.parent a rf b with _ | p <;> rw [hr] at h
          · simp at h
          · simp only [Option.some_inj, Prod.mk.injEq] at h
            rw [← h.1]
        · have := ih _ _ _ (by rw [aStarUpdate_visited]; simp) h
          rw [this, aStarUpdate_visited]
          exact head?_append_singleton _ _ hne

theorem greedyLoop_visited_head (a b : Pos) (rf : Nat) :
    ∀ (fuel : Nat) (s : GreedyState) (r : AlgorithmResult) (g2 : Grid),
      s.visited ≠ [] → greedyLoop a b rf fuel s = some (r, g2) →
      r.visited.head? = s.visited.head? := by
  intro fuel
  induction fuel with
  | zero => intro s r g2 _ h; simp [greedyLoop] at h
  | succ n ih =>
    intro s r g2 hne h
    rw [greedyLoop] at h
    rcases hq : s.openSet with _ | ⟨x0, xs⟩ <;> rw [hq] at h
    · simp only [Option.some_inj, Prod.mk.injEq] at h
      rw [← h.1]
    · dsimp only at h
      split at h
      · rcases hr : reconstructPath s.cameFrom a rf b with _ | p <;> rw [hr] at h
        · simp at h
        · simp only [Option.some_inj, Prod.mk.injEq] at h
          rw [← h.1]
          exact head?_append_singleton _ _ hne
      · have := ih _ _ _ (by rw [greedyExpand_visited]; simp) h
        rw [this, greedyExpand_visited]
        exact head?_append_singleton _ _ hne

theorem rowMajorPositions_eq_map (g : Grid) :
    rowMajorPositions g = (cellsRowMajor g).map (·.1) := by
  unfold rowMajorPositions cellsRowMajor
  rw [List.map_flatMap]
  apply List.flatMap_congr
  intro rp _
  rw [List.map_map]
  have h1 : List.range rp.2.length = rp.2.enum.map Prod.fst := by
    rw [List.enum_map_fst]
  rw [h1, List.map_map]
  rfl

theorem findStartAndEnd_pos_mem (g : Grid) (s : Pos)
    (h : (findStartAndEnd g).1 = some s) : s ∈ rowMajorPositions g := by
  rw [findStartAndEnd_eq_lastOfType] at h
  change lastOfType g CellType.start = some s at h
  unfold lastOfType at h
  rw [Option.map_eq_some'] at h
  obtain ⟨pc, hpc, rfl⟩ := h
  have hmem := List.mem_of_mem_getLast? hpc
  rw [List.mem_filter] at hmem
  rw [rowMajorPositions_eq_map]
  exact List.mem_map_of_mem _ hmem.1

theorem start_ne_end (g : Grid) (s e : Pos)
    (h : findStartAndEnd g = (some s, some e)) : s ≠ e := by
  intro heq
  have h1 := findStartAndEnd_start_type g s (by rw [h])
  have h2 := findStartAndEnd_end_type g e (by rw [h])
  rw [heq, h2] at h1
  exact absurd (Option.some_inj.mp h1) (by decide)

theorem getMin_fold_stable (s : Pos) (vis : Finset Pos) (dist : Pos → Option Nat)
    (hd : ∀ p, dist p = if p = s then some 0 else none) :
    ∀ l : List Pos,
      l.foldl (fun acc p => if p ∉ vis ∧ ltInf (dist p) acc.1 = true
        then (dist p, some p) else acc) ((some 0 : Option Nat), (some s : Option Pos)) =
      (some 0, some s) := by
  intro l
  induction l with
  | nil => rfl
  | cons x xs ih =>
    rw [List.foldl_cons]
    have hlt : ltInf (dist x) (some 0) = false := by
      rw [hd x]
      by_cases hx : x = s
      · simp [hx, ltInf]
      · simp [hx, ltInf]
    rw [if_neg (by simp [hlt])]
    exact ih

theorem getMin_fold_start (s : Pos) (dist : Pos → Option Nat)
    (hd : ∀ p, dist p = if p = s then some 0 else none) :
    ∀ l : List Pos, s ∈ l →
      l.foldl (fun acc p => if p ∉ (∅ : Finset Pos) ∧ ltInf (dist p) acc.1 = true
        then (dist p, some p) else acc) ((none : Option Nat), (none : Option Pos)) =
      (some 0, some s) := by
  intro l
  induction l with
  | nil => intro h; simp at h
  | cons x xs ih =>
    intro hmem
    rw [List.foldl_cons]
    by_cases hx : x = s
    · subst hx
      rw [if_pos (by simp [hd x, ltInf])]
      rw [hd x, if_pos rfl]
      exact getMin_fold_stable x ∅ dist hd xs
    · rw [if_neg (by simp [hd x, hx, ltInf])]
      rcases List.mem_cons.mp hmem with heq | hmem2
      · exact absurd heq.symm hx
      · exact ih hmem2

theorem dijkstra_getMin_init (g : Grid) (s : Pos) (hmem : s ∈ rowMajorPositions g) :
    getMinDistance
      ⟨g, fun p => if p = s then some 0 else none, fun _ => none, ∅, []⟩ = some s := by
  unfold getMinDistance
  rw [getMin_fold_start s _ (fun p => rfl) _ hmem]

theorem lowestF_single (s : Pos) (f : Pos → Option Nat) (k : Nat) (hf : f s = some k) :
    lowestFScore [s] f = some s := by
  unfold lowestFScore
  rw [List.foldl_cons, List.foldl_nil]
  rw [if_pos (by rw [hf]; rfl)]

theorem minHeuristicIndex_single (f : Pos → Nat) (x : Pos) :
    minHeuristicIndex f [x] = 0 := by
  unfold minHeuristicIndex
  simp

/-- Claim C10: on a well-formed grid whose locator finds a start and an end,
any result a strategy returns has a non-empty `visited` whose first element
is the start position. -/
theorem claim_C10_visited_starts_at_start :
    (∀ g s e r g2, wellFormed g → findStartAndEnd g = (some s, some e) →
      bfs g = some (r, g2) → r.visited.head? = some s) ∧
    (∀ g s e r g2, wellFormed g → findStartAndEnd g = (some s, some e) →
      dfs g = some (r, g2) → r.visited.head? = some s) ∧
    (∀ g s e r g2, wellFormed g → findStartAndEnd g = (some s, some e) →
      dijkstra g = some (r, g2) → r.visited.head? = some s) ∧
    (∀ g s e r g2, wellFormed g → findStartAndEnd g = (some s, some e) →
      aStar g = some (r, g2) → r.visited.head? = some s) ∧
    (∀ g s e r g2, wellFormed g → findStartAndEnd g = (some s, some e) →
      greedyBestFirst g = some (r, g2) → r.visited.head? = some s) := by
  refine ⟨?_, ?_, ?_, ?_, ?_⟩
  · intro g s e r g2 hwf hf h
    unfold bfs at h
    rw [hf] at h
    have h2 : bfsLoop s e (cellCount g + 1) (cellCount g + 1)
        ⟨g, [s], {s}, fun _ => none, []⟩ = some (r, g2) := h
    clear h
    generalize hN : cellCount g + 1 = N at h2
    rcases N with _ | n
    · omega
    · rw [bfsLoop] at h2
      dsimp only at h2
      split at h2
      · rcases hr : reconstructPath (fun _ => none) s (n + 1) e with _ | p <;>
          rw [hr] at h2
        · simp at h2
        · simp only [Option.some_inj, Prod.mk.injEq] at h2
          rw [← h2.1]
          rfl
      · have := bfsLoop_visited_head s e (n + 1) n _ r g2
          (by rw [bfsEnqueue_visitedPositions]; simp) h2
        rw [this, bfsEnqueue_visitedPositions]
        rfl
  · intro g s e r g2 hwf hf h
    unfold dfs at h
    rw [hf] at h
    have h2 : dfsLoop s e (cellCount g + 1) (cellCount g + 1)
        ⟨g, [s], {s}, fun _ => none, []⟩ = some (r, g2) := h
    clear h
    generalize hN : cellCount g + 1 = N at h2
    rcases N with _ | n
    · omega
    · rw [dfsLoop] at h2
      dsimp only at h2
      split at h2
      · rcases hr : reconstructPath (fun _ => none) s (n + 1) e with _ | p <;>
          rw [hr] at h2
        · simp at h2
        · simp only [Option.some_inj, Prod.mk.injEq] at h2
          rw [← h2.1]
          rfl
      · have := dfsLoop_visited_head s e (n + 1) n _ r g2
          (by rw [dfsPush_visitedPositions]; simp) h2
        rw [this, dfsPush_visitedPositions]
        rfl
  · intro g s e r g2 hwf hf h
    unfold dijkstra at h
    rw [hf] at h
    have h2 : dijkstraLoop s e (cellCount g + 1) (cellCount g + 1)
        ⟨g, fun p => if p = s then some 0 else none, fun _ => none, ∅, []⟩ =
        some (r, g2) := h
    clear h
    have hmin := dijkstra_getMin_init g s (findStartAndEnd_pos_mem g s (by rw [hf]))
    generalize hN : cellCount g + 1 = N at h2
    rcases N with _ | n
    · omega
    · rw [dijkstraLoop] at h2
      rw [hmin] at h2
      dsimp only at h2
      split at h2
      · rcases hr : reconstructPath (fun _ => none) s (n + 1) e with _ | p <;>
          rw [hr] at h2
        · simp at h2
        · simp only [Option.some_inj, Prod.mk.injEq] at h2
          rw [← h2.1]
          rfl
      · have := dijkstraLoop_visited_head s e (n + 1) n _ r g2
          (by rw [dijkstraRelax_visitedPositions]; simp) h2
        rw [this, dijkstraRelax_visitedPositions]
        rfl
  · intro g s e r g2 hwf hf h
    unfold aStar at h
    rw [hf] at h
    have h2 : aStarLoop s e (cellCount g + 1) (cellCount g + 1)
        ⟨g, [s], ∅, fun p => if p = s then some 0 else none,
          fun p => if p = s then some (heuristic s e) else none,
          fun _ => none, []⟩ = some (r, g2) := h
    clear h
    generalize hN : cellCount g + 1 = N at h2
    rcases N with _ | n
    · omega
    · rw [aStarLoop] at h2
      dsimp only at h2
      rw [lowestF_single s _ (heuristic s e) (by simp)] at h2
      dsimp only at h2
      rw [if_neg (start_ne_end g s e hf)] at h2
      have := aStarLoop_visited_head s e (n + 1) n _ r g2
        (by rw [aStarUpdate_visited]; simp) h2
      rw [this, aStarUpdate_visited]
      rfl
  · intro g s e r g2 hwf hf h
    unfold greedyBestFirst at h
    rw [greedyFindStartEnd_eq g hwf.2.2.1, hf] at h
    have h2 : greedyLoop s e (cellCount g + 1)
        ((cellCount g + 1) * (cellCount g + 1))
        ⟨g, [s], {s}, fun _ => none, []⟩ = some (r, g2) := h
    clear h
    generalize hN : (cellCount g + 1) * (cellCount g + 1) = N at h2
    rcases N with _ | n
    · exact absurd hN (Nat.mul_ne_zero (Nat.succ_ne_zero _) (Nat.succ_ne_zero _))
    · rw [greedyLoop] at h2
      dsimp only at h2
      rw [minHeuristicIndex_single] at h2
      simp only [List.getD_cons_zero] at h2
      split at h2
      · rcases hr : reconstructPath (fun _ => none) s (cellCount g + 1) e with _ | p <;>
          rw [hr] at h2
        · simp at h2
        · simp only [Option.some_inj, Prod.mk.injEq] at h2
          rw [← h2.1]
          rfl
      · have := greedyLoop_visited_head s e (cellCount g + 1) n _ r g2
          (by rw [greedyExpand_visited]; simp) h2
        rw [this, greedyExpand_visited]
        rfl

theorem claim_C10_witness :
    (wellFormed g12 ∧ findStartAndEnd g12 = (some ⟨0, 0⟩, some ⟨0, 1⟩) ∧
      dijkstra g12 = some (⟨[⟨0, 0⟩, ⟨0, 1⟩], [⟨0, 0⟩, ⟨0, 1⟩], true⟩, g12)) ∧
    (⟨[⟨0, 0⟩, ⟨0, 1⟩], [⟨0, 0⟩, ⟨0, 1⟩], true⟩ :
      AlgorithmResult).visited.head? = some ⟨0, 0⟩ :=
  ⟨⟨by decide, by decide, by decide⟩,
    claim_C10_visited_starts_at_start.2.2.1 g12 ⟨0, 0⟩ ⟨0, 1⟩
      ⟨[⟨0, 0⟩, ⟨0, 1⟩], [⟨0, 0⟩, ⟨0, 1⟩], true⟩ g12 (by decide) (by decide) (by decide)⟩

/-! ## Claim C2: the four terminating strategies never visit a cell twice -/

theorem nodup_concat_of {α : Type} {l : List α} {x : α} (h : l.Nodup) (hx : x ∉ l) :
    (l ++ [x]).Nodup := by
  induction l with
  | nil => simp
  | cons a l ih =>
    rw [List.cons_append, List.nodup_cons] at *
    obtain ⟨ha, hl⟩ := h
    refine ⟨?_, ih hl (fun hm => hx (List.mem_cons_of_mem _ hm))⟩
    intro hm
    rcases List.mem_append.mp hm with h1 | h2
    · exact ha h1
    · rw [List.mem_singleton] at h2
      rw [h2] at hx
      exact hx (List.mem_cons_self _ _)

theorem bfsEnqueue_c2 (s : BfsState) (c : Pos) (h : bfsC2Inv s) :
    bfsC2Inv (bfsEnqueue s c) := by
  unfold bfsEnqueue
  apply foldl_preserve (P := bfsC2Inv) _ _ s h
  intro t x ht
  dsimp only
  split
  · exact ht
  · rename_i hx
    obtain ⟨hnd, hmem⟩ := ht
    constructor
    · show (t.visitedPositions ++ (t.queue ++ [x])).Nodup
      rw [← List.append_assoc]
      exact nodup_concat_of hnd (fun hm => hx (hmem x hm))
    · intro p hp
      rw [show (t.visitedPositions ++ (t.queue ++ [x])) =
        (t.visitedPositions ++ t.queue) ++ [x] from (List.append_assoc _ _ _).symm] at hp
      rcases List.mem_append.mp hp with h1 | h2
      · exact Finset.mem_insert_of_mem (hmem p h1)
      · rw [List.mem_singleton] at h2
        rw [h2]
        exact Finset.mem_insert_self _ _

theorem bfsLoop_nodup (a b : Pos) (rf : Nat) :
    ∀ (fuel : Nat) (s : BfsState) (r : AlgorithmResult) (g2 : Grid),
      bfsC2Inv s → bfsLoop a b rf fuel s = some (r, g2) → r.visited.Nodup := by
  intro fuel
  induction fuel with
  | zero => intro s r g2 _ h; simp [bfsLoop] at h
  | succ n ih =>
    intro s r g2 hinv h
    rw [bfsLoop] at h
    rcases hq : s.queue with _ | ⟨current, rest⟩ <;> rw [hq] at h
    · simp only [Option.some_inj, Prod.mk.injEq] at h
      rw [← h.1]
      have h1 := hinv.1
      rw [hq, List.append_nil] at h1
      exact h1
    · dsimp only at h
      split at h
      · rcases hr : reconstructPath s.parent a rf b with _ | p <;> rw [hr] at h
        · simp at h
        · simp only [Option.some_inj, Prod.mk.injEq] at h
          rw [← h.1]
          have h1 := hinv.1
          rw [hq] at h1
          have h2 : ((s.visitedPositions ++ [current]) ++ rest).Nodup := by
            rw [List.append_assoc]
            exact h1
          exact h2.of_append_left
      · refine ih _ _ _ ?_ h
        apply bfsEnqueue_c2
        constructor
        · show ((s.visitedPositions ++ [current]) ++ rest).Nodup
          have h1 := hinv.1
          rw [hq] at h1
          rw [List.append_assoc]
          exact h1
        · intro p hp
          have hp' : p ∈ s.visitedPositions ++ current :: rest := by
            rw [show s.visitedPositions ++ current :: rest =
              (s.visitedPositions ++ [current]) ++ rest from by simp]
            exact hp
          have h2 := hinv.2
          rw [hq] at h2
          exact h2 p hp'

theorem dfsPush_c2 (s : DfsState) (c : Pos) (h : dfsC2Inv s) :
    dfsC2Inv (dfsPush s c) := by
  unfold dfsPush
  apply foldl_preserve (P := dfsC2Inv) _ _ s h
  intro t x ht
  dsimp only
  split
  · exact ht
  · rename_i hx
    obtain ⟨hnd, hmem⟩ := ht
    constructor
    · show (t.visitedPositions ++ x :: t.stack).Nodup
      rw [List.nodup_middle, List.nodup_cons]
      exact ⟨fun hm => hx (hmem x hm), hnd⟩
    · intro p hp
      show p ∈ insert x t.visited
      rcases List.mem_append.mp hp with h1 | h2
      · exact Finset.mem_insert_of_mem (hmem p (List.mem_append.mpr (Or.inl h1)))
      · rcases List.mem_cons.mp h2 with h3 | h3
        · rw [h3]
          exact Finset.mem_insert_self _ _
        · exact Finset.mem_insert_of_mem (hmem p (List.mem_append.mpr (Or.inr h3)))

theorem dfsLoop_nodup (a b : Pos) (rf : Nat) :
    ∀ (fuel : Nat) (s : DfsState) (r : AlgorithmResult) (g2 : Grid),
      dfsC2Inv s → dfsLoop a b rf fuel s = some (r, g2) → r.visited.Nodup := by
  intro fuel
  induction fuel with
  | zero => intro s r g2 _ h; simp [dfsLoop] at h
  | succ n ih =>
    intro s r g2 hinv h
    rw [dfsLoop] at h
    rcases hq : s.stack with _ | ⟨current, rest⟩ <;> rw [hq] at h
    · simp only [Option.some_inj, Prod.mk.injEq] at h
      rw [← h.1]
      have h1 := hinv.1
      rw [hq, List.append_nil] at h1
      exact h1
    · dsimp only at h
      split at h
      · rcases hr : reconstructPath s.parent a rf b with _ | p <;> rw [hr] at h
        · simp at h
        · simp only [Option.some_inj, Prod.mk.injEq] at h
          rw [← h.1]
          have h1 := hinv.1
          rw [hq] at h1
          have h2 : ((s.visitedPositions ++ [current]) ++ rest).Nodup := by
            rw [List.append_assoc]
            exact h1
          exact h2.of_append_left
      · refine ih _ _ _ ?_ h
        apply dfsPush_c2
        constructor
        · show ((s.visitedPositions ++ [current]) ++ rest).Nodup
          have h1 := hinv.1
          rw [hq] at h1
          rw [List.append_assoc]
          exact h1
        · intro p hp
          have hp' : p ∈ s.visitedPositions ++ current :: rest := by
            rw [show s.visitedPositions ++ current :: rest =
              (s.visitedPositions ++ [current]) ++ rest from by simp]
            exact hp
          have h2 := hinv.2
          rw [hq] at h2
          exact h2 p hp'

theorem getMinDistance_not_visited (s : DijkstraState) (c : Pos)
    (h : getMinDistance s = some c) : c ∉ s.visited := by
  unfold getMinDistance at h
  refine foldl_preserve
    (P := fun acc : Option Nat × Option Pos => ∀ q, acc.2 = some q → q ∉ s.visited)
    ?_ (rowMajorPositions s.grid) ((none, none)) ?_ c h
  · intro acc p hacc
    dsimp only
    split
    · rename_i hcond
      intro q hq
      simp only [Option.some_inj] at hq
      rw [← hq]
      exact hcond.1
    · exact hacc
  · intro q hq
    simp at hq

theorem dijkstraRelax_visitedSet (s : DijkstraState) (c : Pos) :
    (dijkstraRelax s c).visited = s.visited := by
  unfold dijkstraRelax
  apply foldl_preserve (P := fun (t : DijkstraState) => t.visited = s.visited) _ _ s rfl
  intro t x ht
  dsimp only
  repeat' split
  all_goals simpa using ht

theorem dijkstraLoop_nodup (a b : Pos) (rf : Nat) :
    ∀ (fuel : Nat) (s : DijkstraState) (r : AlgorithmResult) (g2 : Grid),
      dijkstraC2Inv s → dijkstraLoop a b rf fuel s = some (r, g2) → r.visited.Nodup := by
  intro fuel
  induction fuel with
  | zero => intro s r g2 _ h; simp [dijkstraLoop] at h
  | succ n ih =>
    intro s r g2 hinv h
    rw [dijkstraLoop] at h
    rcases hq : getMinDistance s with _ | current <;> rw [hq] at h
    · simp only [Option.some_inj, Prod.mk.injEq] at h
      rw [← h.1]
      exact hinv.1
    · have hcv : current ∉ s.visited := getMinDistance_not_visited s current hq
      have hct : current ∉ s.visitedPositions := fun hm => hcv (hinv.2 _ hm)
      dsimp only at h
      split at h
      · rcases hr : reconstructPath s.parent a rf b with _ | p <;> rw [hr] at h
        · simp at h
        · simp only [Option.some_inj, Prod.mk.injEq] at h
          rw [← h.1]
          exact nodup_concat_of hinv.1 hct
      · refine ih _ _ _ ?_ h
        constructor
        · rw [dijkstraRelax_visitedPositions]
          exact nodup_concat_of hinv.1 hct
        · intro p hp
          rw [dijkstraRelax_visitedPositions] at hp
          rw [dijkstraRelax_visitedSet]
          show p ∈ insert current s.visited
          rcases List.mem_append.mp hp with h1 | h2
          · exact Finset.mem_insert_of_mem (hinv.2 p h1)
          · rw [List.mem_singleton] at h2
            rw [h2]
            exact Finset.mem_insert_self _ _

theorem lowestFScore_mem (l : List Pos) (f : Pos → Option Nat) (c : Pos)
    (h : lowestFScore l f = some c) : c ∈ l := by
  unfold lowestFScore at h
  refine foldl_preserve_mem
    (P := fun acc : Option Nat × Option Pos => ∀ q, acc.2 = some q → q ∈ l)
    l ?_ ((none, none)) ?_ c h
  · intro acc k hk hacc
    dsimp only
    split
    · intro q hq
      simp only [Option.some_inj] at hq
      rw [← hq]
      exact hk
    · exact hacc
  · intro q hq
    simp at hq

theorem aStarUpdate_c2 (e : Pos) (s : AStarState) (c : Pos) (h : aStarC2Inv s) :
    aStarC2Inv (aStarUpdate e s c) := by
  unfold aStarUpdate
  apply foldl_preserve (P := aStarC2Inv) _ _ s h
  intro t x ht
  dsimp only
  split
  · exact ht
  · rename_i hxc
    split
    · rename_i hxo
      obtain ⟨h1, h2, h3, h4⟩ := ht
      refine ⟨h1, h2, ?_, ?_⟩
      · exact nodup_concat_of h3 hxo
      · intro p hp
        rcases List.mem_append.mp hp with hh | hh
        · exact h4 p hh
        · rw [List.mem_singleton] at hh
          rw [hh]
          exact hxc
    · split
      · exact ht
      · exact ht

theorem aStarLoop_nodup (a b : Pos) (rf : Nat) :
    ∀ (fuel : Nat) (s : AStarState) (r : AlgorithmResult) (g2 : Grid),
      aStarC2Inv s → aStarLoop a b rf fuel s = some (r, g2) → r.visited.Nodup := by
  intro fuel
  induction fuel with
  | zero => intro s r g2 _ h; simp [aStarLoop] at h
  | succ n ih =>
    intro s r g2 hinv h
    rw [aStarLoop] at h
    rcases hq : s.openSet with _ | ⟨x0, xs⟩ <;> rw [hq] at h
    · simp only [Option.some_inj, Prod.mk.injEq] at h
      rw [← h.1]
      exact hinv.1
    · rcases hm : lowestFScore s.openSet s.fScore with _ | current <;>
        rw [hq] at hm <;> rw [hm] at h
      · simp at h
      · have hcur : current ∈ s.openSet := by
          rw [hq]
          exact lowestFScore_mem _ _ _ hm
        obtain ⟨h1, h2, h3, h4⟩ := hinv
        have hcc : current ∉ s.closedSet := h4 _ hcur
        have hct : current ∉ s.visitedPositions := fun hm' => hcc (h2 _ hm')
        dsimp only at h
        split at h
        · rcases hr : reconstructPath s.parent a rf b with _ | p <;> rw [hr] at h
          · simp at h
          · simp only [Option.some_inj, Prod.mk.injEq] at h
            rw [← h.1]
            exact h1
        · refine ih _ _ _ ?_ h
          apply aStarUpdate_c2
          refine ⟨?_, ?_, ?_, ?_⟩
          · show (s.visitedPositions ++ [current]).Nodup
            exact nodup_concat_of h1 hct
          · intro p hp
            show p ∈ insert current s.closedSet
            rcases List.mem_append.mp hp with hh | hh
            · exact Finset.mem_insert_of_mem (h2 p hh)
            · rw [List.mem_singleton] at hh
              rw [hh]
              exact Finset.mem_insert_self _ _
          · show ((x0 :: xs).erase current).Nodup
            have h3' := h3
            rw [hq] at h3'
            exact h3'.erase _
          · intro p hp
            have h3' := h3
            rw [hq] at h3'
            have := (List.Nodup.mem_erase_iff h3').mp hp
            show p ∉ insert current s.closedSet
            intro hmem
            rcases Finset.mem_insert.mp hmem with hh | hh
            · exact this.1 hh
            · refine h4 p ?_ hh
              rw [hq]
              exact this.2

/-! ## Claim C2 for greedy: heuristic, candidate and index facts -/

theorem heuristic_eq_zero_iff (a b : Pos) : heuristic a b = 0 ↔ a = b := by
  unfold heuristic
  cases a
  cases b
  simp only [Pos.mk.injEq]
  omega

theorem mem_greedyCandidates_iff (x y : Pos) :
    y ∈ greedyCandidates x ↔ heuristic x y = 1 := by
  unfold greedyCandidates heuristic
  cases x
  cases y
  simp only [List.mem_cons, List.not_mem_nil, or_false, Pos.mk.injEq]
  omega

theorem greedyCandidates_symm (x y : Pos) (h : y ∈ greedyCandidates x) :
    x ∈ greedyCandidates y := by
  rw [mem_greedyCandidates_iff] at h ⊢
  unfold heuristic at h ⊢
  omega

theorem not_mem_greedyCandidates_self (x : Pos) : x ∉ greedyCandidates x := by
  rw [mem_greedyCandidates_iff]
  unfold heuristic
  omega

theorem getD_mem {α : Type} (l : List α) (i : Nat) (d : α) (h : i < l.length) :
    l.getD i d ∈ l := by
  induction l generalizing i with
  | nil => simp at h
  | cons a l ih =>
    cases i with
    | zero => simp
    | succ n =>
      simp only [List.getD_cons_succ]
      exact List.mem_cons_of_mem _ (ih n (by simpa using h))

theorem eraseIdx_not_mem {α : Type} (l : List α) (i : Nat) (d : α)
    (hn : l.Nodup) (h : i < l.length) : l.getD i d ∉ l.eraseIdx i := by
  induction l generalizing i with
  | nil => simp at h
  | cons a l ih =>
    cases i with
    | zero =>
      simp only [List.getD_cons_zero, List.eraseIdx_cons_zero]
      exact (List.nodup_cons.mp hn).1
    | succ n =>
      simp only [List.getD_cons_succ, List.eraseIdx_cons_succ, List.mem_cons]
      rintro (h1 | h2)
      · have hm := getD_mem l n d (by simpa using h)
        rw [h1] at hm
        exact (List.nodup_cons.mp hn).1 hm
      · exact ih n (List.nodup_cons.mp hn).2 (by simpa using h) h2

theorem mem_eraseIdx_of_ne {α : Type} (l : List α) (i : Nat) (d : α)
    (x : α) (hx : x ∈ l) (hne : x ≠ l.getD i d) : x ∈ l.eraseIdx i := by
  induction l generalizing i with
  | nil => simp at hx
  | cons a l ih =>
    cases i with
    | zero =>
      simp only [List.getD_cons_zero] at hne
      simp only [List.eraseIdx_cons_zero]
      rcases List.mem_cons.mp hx with h1 | h1
      · exact absurd h1 hne
      · exact h1
    | succ n =>
      simp only [List.getD_cons_succ] at hne
      simp only [List.eraseIdx_cons_succ, List.mem_cons]
      rcases List.mem_cons.mp hx with h1 | h1
      · exact Or.inl h1
      · exact Or.inr (ih n h1 hne)

theorem minH_fold_aux (f : Pos → Nat) (l : List Pos) (d : Pos) :
    ∀ (ps : List (Nat × Pos)) (acc : Nat × Nat),
      (∀ q ∈ ps, q.1 < l.length ∧ l.getD q.1 d = q.2) →
      acc.1 < l.length → f (l.getD acc.1 d) = acc.2 →
      (let r := ps.foldl (fun acc p => if f p.2 < acc.2 then (p.1, f p.2) else acc) acc
       r.1 < l.length ∧ f (l.getD r.1 d) = r.2 ∧ r.2 ≤ acc.2 ∧
         ∀ q ∈ ps, r.2 ≤ f q.2) := by
  intro ps
  induction ps with
  | nil =>
    intro acc _ h1 h2
    exact ⟨h1, h2, le_refl _, by simp⟩
  | cons q ps ih =>
    intro acc hps h1 h2
    simp only [List.foldl_cons]
    by_cases hlt : f q.2 < acc.2
    · rw [if_pos hlt]
      have hq := hps q (List.mem_cons_self _ _)
      obtain ⟨ih1, ih2, ih3, ih4⟩ :=
        ih (q.1, f q.2) (fun p hp => hps p (List.mem_cons_of_mem _ hp)) hq.1
          (by rw [hq.2])
      refine ⟨ih1, ih2, le_trans ih3 (le_of_lt hlt), ?_⟩
      intro p hp
      rcases List.mem_cons.mp hp with hh | hh
      · rw [hh]
        exact ih3
      · exact ih4 p hh
    · rw [if_neg hlt]
      obtain ⟨ih1, ih2, ih3, ih4⟩ :=
        ih acc (fun p hp => hps p (List.mem_cons_of_mem _ hp)) h1 h2
      refine ⟨ih1, ih2, ih3, ?_⟩
      intro p hp
      rcases List.mem_cons.mp hp with hh | hh
      · rw [hh]
        exact le_trans ih3 (Nat.le_of_not_lt hlt)
      · exact ih4 p hh

theorem minHeuristicIndex_spec (f : Pos → Nat) (l : List Pos) (hl : l ≠ []) :
    minHeuristicIndex f l < l.length ∧
      ∀ x ∈ l, f (l.getD (minHeuristicIndex f l) ⟨0, 0⟩) ≤ f x := by
  rcases hL : l with _ | ⟨x0, xs⟩
  · exact absurd hL hl
  · unfold minHeuristicIndex
    have haux := minH_fold_aux f (x0 :: xs) ⟨0, 0⟩ ((x0 :: xs).enum) (0, f x0)
      ?_ (by simp) (by simp)
    · obtain ⟨ha1, ha2, ha3, ha4⟩ := haux
      refine ⟨ha1, ?_⟩
      intro x hx
      obtain ⟨⟨i, hi⟩, hget⟩ := List.mem_iff_get.mp hx
      have henum : (i, x) ∈ (x0 :: xs).enum := by
        rw [List.mem_enum_iff_getElem?]
        rw [List.getElem?_eq_getElem hi]
        rw [← hget]
        rfl
      have := ha4 (i, x) henum
      rw [ha2]
      exact this
    · intro q hq
      rw [List.mem_enum_iff_getElem?] at hq
      have hlen := List.getElem?_eq_some_iff.mp hq
      obtain ⟨hlt, hgetq⟩ := hlen
      refine ⟨hlt, ?_⟩
      rw [List.getD_eq_getElem?_getD, hq]
      rfl

/-! ## Claim C2 for greedy: the reconstruction walk cannot escape a broken
parent chain -/

theorem reconstruct_cycle_none (parent : Pos → Option Pos) (a c z : Pos)
    (hc : parent c = some z) (hz : parent z = some c) (hca : c ≠ a) (hza : z ≠ a) :
    ∀ (fuel : Nat) (cur : Pos), (cur = c ∨ cur = z) →
      reconstructPath parent a fuel cur = none := by
  intro fuel
  induction fuel with
  | zero => intro cur _; rfl
  | succ n ih =>
    intro cur hcur
    rcases hcur with h1 | h1 <;> rw [h1]
    · rw [reconstructPath, if_neg hca, hc]
      show (reconstructPath parent a n z).map (· ++ [c]) = none
      rw [ih z (Or.inr rfl)]
      rfl
    · rw [reconstructPath, if_neg hza, hz]
      show (reconstructPath parent a n c).map (· ++ [z]) = none
      rw [ih c (Or.inl rfl)]
      rfl

theorem reconstruct_stuck_none (parent : Pos → Option Pos) (a c : Pos)
    (hc : parent c = none) (hca : c ≠ a) :
    ∀ fuel, reconstructPath parent a fuel c = none := by
  intro fuel
  cases fuel with
  | zero => rfl
  | succ n => rw [reconstructPath, if_neg hca, hc]

theorem reconstruct_from_stuck (parent : Pos → Option Pos) (a b c : Pos)
    (hb : parent b = some c) (hc : parent c = none) (hba : b ≠ a) (hca : c ≠ a) :
    ∀ fuel, reconstructPath parent a fuel b = none := by
  intro fuel
  cases fuel with
  | zero => rfl
  | succ n =>
    rw [reconstructPath, if_neg hba, hb]
    show (reconstructPath parent a n c).map (· ++ [b]) = none
    rw [reconstruct_stuck_none parent a c hc hca n]
    rfl

theorem reconstruct_from_cycle (parent : Pos → Option Pos) (a b c z : Pos)
    (hb : parent b = some c) (hc : parent c = some z) (hz : parent z = some c)
    (hba : b ≠ a) (hca : c ≠ a) (hza : z ≠ a) :
    ∀ fuel, reconstructPath parent a fuel b = none := by
  intro fuel
  cases fuel with
  | zero => rfl
  | succ n =>
    rw [reconstructPath, if_neg hba, hb]
    show (reconstructPath parent a n c).map (· ++ [b]) = none
    rw [reconstruct_cycle_none parent a c z hc hz hca hza n c (Or.inl rfl)]
    rfl

theorem cellTypeAt_some_inGrid (g : Grid) (p : Pos) (t : CellType)
    (hrect : ∀ row ∈ g, row.length = gridCols g) (h : cellTypeAt g p = some t) :
    inGrid g p := by
  unfold cellTypeAt at h
  split at h
  · simp at h
  · rename_i hneg
    push_neg at hneg
    rcases hb : g.get? p.row.toNat with _ | row
    · rw [hb] at h
      simp at h
    · rw [hb] at h
      simp only [Option.some_bind] at h
      rcases hc : row.get? p.col.toNat with _ | cell
      · rw [hc] at h
        simp at h
      · have hr : p.row.toNat < g.length := List.get?_eq_some.mp hb |>.1
        have hcl : p.col.toNat < row.length := List.get?_eq_some.mp hc |>.1
        have hrowmem : row ∈ g := List.get?_mem hb
        have hlen := hrect row hrowmem
        rw [hlen] at hcl
        unfold inGrid gridRows
        omega

/-! ## Claim C2 for greedy: what one expansion does to the state -/

theorem greedyExpand_eq (s : GreedyState) (cur : Pos) :
    greedyExpand s cur = (greedyCandidates cur).foldl (greedyStep cur) s := rfl

theorem greedyStep_filtered (cur : Pos) (t : GreedyState) (c0 : Pos)
    (h : c0.row < 0 ∨ (gridRows t.grid : Int) ≤ c0.row ∨
      c0.col < 0 ∨ (gridCols t.grid : Int) ≤ c0.col ∨
      passable (cellTypeAt t.grid c0) = false ∨ c0 ∈ t.closedSet) :
    greedyStep cur t c0 = t := by
  unfold greedyStep
  rw [if_pos h]

theorem greedyStep_inOpen (cur : Pos) (t : GreedyState) (c0 : Pos)
    (h : ¬(c0.row < 0 ∨ (gridRows t.grid : Int) ≤ c0.row ∨
      c0.col < 0 ∨ (gridCols t.grid : Int) ≤ c0.col ∨
      passable (cellTypeAt t.grid c0) = false ∨ c0 ∈ t.closedSet))
    (h2 : c0 ∈ t.openSet) : greedyStep cur t c0 = t := by
  unfold greedyStep
  rw [if_neg h, if_pos h2]

theorem greedyStep_add (cur : Pos) (t : GreedyState) (c0 : Pos)
    (h : ¬(c0.row < 0 ∨ (gridRows t.grid : Int) ≤ c0.row ∨
      c0.col < 0 ∨ (gridCols t.grid : Int) ≤ c0.col ∨
      passable (cellTypeAt t.grid c0) = false ∨ c0 ∈ t.closedSet))
    (h2 : c0 ∉ t.openSet) :
    greedyStep cur t c0 =
      { t with openSet := t.openSet ++ [c0], cameFrom := fupdate t.cameFrom c0 cur } := by
  unfold greedyStep
  rw [if_neg h, if_neg h2]

theorem okCell_of_not_filtered (t : GreedyState) (c0 : Pos)
    (h : ¬(c0.row < 0 ∨ (gridRows t.grid : Int) ≤ c0.row ∨
      c0.col < 0 ∨ (gridCols t.grid : Int) ≤ c0.col ∨
      passable (cellTypeAt t.grid c0) = false ∨ c0 ∈ t.closedSet)) :
    okCell t.grid c0 ∧ c0 ∉ t.closedSet := by
  push_neg at h
  obtain ⟨h1, h2, h3, h4, h5, h6⟩ := h
  refine ⟨⟨⟨by omega, by omega, by omega, by omega⟩, ?_⟩, h6⟩
  cases hP : passable (cellTypeAt t.grid c0) with
  | false => exact absurd hP h5
  | true => rfl

theorem not_filtered_of_okCell (t : GreedyState) (c0 : Pos)
    (hok : okCell t.grid c0) (hcl : c0 ∉ t.closedSet) :
    ¬(c0.row < 0 ∨ (gridRows t.grid : Int) ≤ c0.row ∨
      c0.col < 0 ∨ (gridCols t.grid : Int) ≤ c0.col ∨
      passable (cellTypeAt t.grid c0) = false ∨ c0 ∈ t.closedSet) := by
  obtain ⟨⟨hb1, hb2, hb3, hb4⟩, hp⟩ := hok
  rintro (h | h | h | h | h | h)
  · omega
  · omega
  · omega
  · omega
  · rw [hp] at h
    simp at h
  · exact hcl h

theorem greedyFold_spec (cur : Pos) :
    ∀ (cs : List Pos) (t : GreedyState),
      ∃ L : List Pos,
        (cs.foldl (greedyStep cur) t).grid = t.grid ∧
        (cs.foldl (greedyStep cur) t).closedSet = t.closedSet ∧
        (cs.foldl (greedyStep cur) t).visited = t.visited ∧
        (cs.foldl (greedyStep cur) t).openSet = t.openSet ++ L ∧
        (∀ y ∈ L, y ∈ cs ∧ okCell t.grid y ∧ y ∉ t.closedSet ∧ y ∉ t.openSet ∧
          (cs.foldl (greedyStep cur) t).cameFrom y = some cur) ∧
        (∀ p, p ∉ L → (cs.foldl (greedyStep cur) t).cameFrom p = t.cameFrom p) ∧
        (t.openSet.Nodup → (t.openSet ++ L).Nodup) ∧
        (∀ y ∈ cs, okCell t.grid y → y ∉ t.closedSet →
          y ∈ (cs.foldl (greedyStep cur) t).openSet) := by
  intro cs
  induction cs with
  | nil =>
    intro t
    refine ⟨[], rfl, rfl, rfl, (List.append_nil _).symm, by simp, fun p _ => rfl,
      fun h => by simpa using h, by simp⟩
  | cons c0 cs ih =>
    intro t
    simp only [List.foldl_cons]
    by_cases h1 : (c0.row < 0 ∨ (gridRows t.grid : Int) ≤ c0.row ∨
        c0.col < 0 ∨ (gridCols t.grid : Int) ≤ c0.col ∨
        passable (cellTypeAt t.grid c0) = false ∨ c0 ∈ t.closedSet)
    · rw [greedyStep_filtered cur t c0 h1]
      obtain ⟨L, hg, hc, hv, ho, hL, hcame, hnd, hE3⟩ := ih t
      refine ⟨L, hg, hc, hv, ho, ?_, hcame, hnd, ?_⟩
      · intro y hy
        obtain ⟨hy1, hy2, hy3, hy4, hy5⟩ := hL y hy
        exact ⟨List.mem_cons_of_mem _ hy1, hy2, hy3, hy4, hy5⟩
      · intro y hy hok hcl
        rcases List.mem_cons.mp hy with hh | hh
        · rw [hh] at hok hcl
          exact absurd h1 (not_filtered_of_okCell t c0 hok hcl)
        · exact hE3 y hh hok hcl
    · by_cases h2 : c0 ∈ t.openSet
      · rw [greedyStep_inOpen cur t c0 h1 h2]
        obtain ⟨L, hg, hc, hv, ho, hL, hcame, hnd, hE3⟩ := ih t
        refine ⟨L, hg, hc, hv, ho, ?_, hcame, hnd, ?_⟩
        · intro y hy
          obtain ⟨hy1, hy2, hy3, hy4, hy5⟩ := hL y hy
          exact ⟨List.mem_cons_of_mem _ hy1, hy2, hy3, hy4, hy5⟩
        · intro y hy hok hcl
          rcases List.mem_cons.mp hy with hh | hh
          · rw [ho, hh]
            exact List.mem_append.mpr (Or.inl h2)
          · exact hE3 y hh hok hcl
      · rw [greedyStep_add cur t c0 h1 h2]
        obtain ⟨L', hg, hc, hv, ho, hL, hcame, hnd, hE3⟩ :=
          ih ⟨t.grid, t.openSet ++ [c0], t.closedSet, fupdate t.cameFrom c0 cur,
            t.visited⟩
        obtain ⟨hok0, hcl0⟩ := okCell_of_not_filtered t c0 h1
        have hc0L' : c0 ∉ L' := by
          intro hmem
          have := (hL c0 hmem).2.2.2.1
          exact this (List.mem_append.mpr (Or.inr (List.mem_singleton.mpr rfl)))
        refine ⟨c0 :: L', hg, hc, hv, ?_, ?_, ?_, ?_, ?_⟩
        · rw [ho]
          simp [List.append_assoc]
        · intro y hy
          rcases List.mem_cons.mp hy with hh | hh
          · subst hh
            refine ⟨List.mem_cons_self _ _, hok0, hcl0, h2, ?_⟩
            rw [hcame y hc0L']
            simp [fupdate]
          · obtain ⟨hy1, hy2, hy3, hy4, hy5⟩ := hL y hh
            refine ⟨List.mem_cons_of_mem _ hy1, hy2, hy3, ?_, hy5⟩
            intro hmem
            exact hy4 (List.mem_append.mpr (Or.inl hmem))
        · intro p hp
          have hpc0 : p ≠ c0 := fun hh => hp (hh ▸ List.mem_cons_self _ _)
          have hpL' : p ∉ L' := fun hh => hp (List.mem_cons_of_mem _ hh)
          rw [hcame p hpL']
          simp [fupdate, hpc0]
        · intro hndt
          have h3 : (t.openSet ++ [c0]).Nodup := nodup_concat_of hndt h2
          have := hnd h3
          rw [List.append_assoc] at this
          exact this
        · intro y hy hok hcl
          rcases List.mem_cons.mp hy with hh | hh
          · rw [ho, hh]
            exact List.mem_append.mpr
              (Or.inl (List.mem_append.mpr (Or.inr (List.mem_singleton.mpr rfl))))
          · exact hE3 y hh hok hcl

/-! ## Claim C2 for greedy: the loop invariant survives one iteration -/

theorem gInv_step (g : Grid) (a b : Pos) (hab : a ≠ b) (hbok : okCell g b)
    (s : GreedyState) (idx : Nat) (current : Pos)
    (hinv : gInv g a b s)
    (hidx : idx < s.openSet.length)
    (hcur : current = s.openSet.getD idx ⟨0, 0⟩)
    (hmin : ∀ x ∈ s.openSet, heuristic current b ≤ heuristic x b)
    (hcb : current ≠ b) :
    gInv g a b (greedyExpand
      ⟨s.grid, s.openSet.eraseIdx idx, s.closedSet, s.cameFrom,
        s.visited ++ [current]⟩ current) := by
  rcases hinv with h0 | ⟨⟨⟨hg, hcl, hndo, hao, hok⟩, hbo, hcfb, hbv, hkey⟩, hphase⟩ | hFin
  · -- initial state: the start is popped and expanded
    obtain ⟨hg, hop, hcl, hvis, hcf⟩ := h0
    have hidx0 : idx = 0 := by
      rw [hop] at hidx
      simpa using hidx
    have hca' : current = a := by
      rw [hcur, hop, hidx0]
      rfl
    rw [hop, hvis, hidx0, hca']
    simp only [List.eraseIdx_cons_zero, List.nil_append]
    rw [greedyExpand_eq]
    obtain ⟨L, hg', hc', hv', ho', hL, hcame, hnd', hE3⟩ :=
      greedyFold_spec a (greedyCandidates a) ⟨s.grid, [], s.closedSet, s.cameFrom, [a]⟩
    generalize hR : List.foldl (greedyStep a)
      (⟨s.grid, [], s.closedSet, s.cameFrom, [a]⟩ : GreedyState)
      (greedyCandidates a) = R at hg' hc' hv' ho' hL hcame hE3 ⊢
    have haL : a ∉ L := by
      intro hmem
      have := (hL a hmem).2.2.1
      rw [hcl] at this
      exact this (Finset.mem_singleton_self a)
    by_cases hbL : b ∈ L
    · refine Or.inr (Or.inr ⟨hg'.trans hg, ?_, ?_, Or.inl ⟨?_, ?_⟩⟩)
      · rw [ho']
        exact List.mem_append.mpr (Or.inr hbL)
      · rw [hv']
        simp [Ne.symm hab]
      · exact (hL b hbL).2.2.2.2
      · rw [hv']
    · refine Or.inr (Or.inl ⟨⟨⟨hg'.trans hg, hc'.trans hcl, ?_, ?_, ?_⟩,
        ?_, ?_, ?_, ?_⟩, Or.inl ⟨?_, ?_⟩⟩)
      · rw [ho']
        exact hnd' (by simp)
      · rw [ho']
        intro hmem
        rcases List.mem_append.mp hmem with hh | hh
        · simp at hh
        · exact haL hh
      · intro p hp
        rw [ho'] at hp
        rcases List.mem_append.mp hp with hh | hh
        · simp at hh
        · have := (hL p hh).2.1
          rw [show (⟨s.grid, [], s.closedSet, s.cameFrom, [a]⟩ : GreedyState).grid
            = g from hg] at this
          exact this
      · rw [ho']
        intro hmem
        rcases List.mem_append.mp hmem with hh | hh
        · simp at hh
        · exact hbL hh
      · rw [hcame b hbL]
        exact hcf b
      · rw [hv']
        simp [Ne.symm hab]
      · intro x hx hx1 z hz
        rw [ho'] at hx
        rcases List.mem_append.mp hx with hh | hh
        · simp at hh
        · rw [(hL x hh).2.2.2.2] at hz
          simp only [Option.some_inj] at hz
          exact Or.inl ⟨hz.symm, hv'⟩
      · rw [hv']
        simp
      · intro p hp
        rw [ho'] at hp
        rw [hv']
        rcases List.mem_append.mp hp with hh | hh
        · simp at hh
        · have hpa : p ≠ a := fun hh2 => haL (hh2 ▸ hh)
          simp [hpa]
  · -- mid-run state
    have hc_mem : current ∈ s.openSet := by
      rw [hcur]
      exact getD_mem _ _ _ hidx
    have hca : current ≠ a := fun hh => hao (hh ▸ hc_mem)
    have hno_erase : current ∉ s.openSet.eraseIdx idx := by
      rw [hcur]
      exact eraseIdx_not_mem _ _ _ hndo hidx
    have hsub : ∀ x ∈ s.openSet.eraseIdx idx, x ∈ s.openSet :=
      fun x hx => (List.eraseIdx_sublist s.openSet idx).subset hx
    have hnd1 : (s.openSet.eraseIdx idx).Nodup :=
      hndo.sublist (List.eraseIdx_sublist s.openSet idx)
    rw [greedyExpand_eq]
    obtain ⟨L, hg', hc', hv', ho', hL, hcame, hnd', hE3⟩ :=
      greedyFold_spec current (greedyCandidates current)
        ⟨s.grid, s.openSet.eraseIdx idx, s.closedSet, s.cameFrom, s.visited ++ [current]⟩
    generalize hR : List.foldl (greedyStep current)
      (⟨s.grid, s.openSet.eraseIdx idx, s.closedSet, s.cameFrom,
        s.visited ++ [current]⟩ : GreedyState)
      (greedyCandidates current) = R at hg' hc' hv' ho' hL hcame hE3 ⊢
    have hcurL : current ∉ L := fun hmem =>
      not_mem_greedyCandidates_self current ((hL current hmem).1)
    have hcurR : current ∉ R.openSet := by
      rw [ho']
      intro hmem
      rcases List.mem_append.mp hmem with hh | hh
      · exact hno_erase hh
      · exact hcurL hh
    have haL : a ∉ L := by
      intro hmem
      have := (hL a hmem).2.2.1
      rw [hcl] at this
      exact this (Finset.mem_singleton_self a)
    have hLg : ∀ y ∈ L, okCell g y := by
      intro y hy
      have := (hL y hy).2.1
      rw [show (⟨s.grid, s.openSet.eraseIdx idx, s.closedSet, s.cameFrom,
        s.visited ++ [current]⟩ : GreedyState).grid = g from hg] at this
      exact this
    by_cases hh1 : heuristic current b = 1
    · -- the popped cell touches the end: the end is enqueued and the loop
      -- returns on the next iteration
      have hbcand : b ∈ greedyCandidates current :=
        (mem_greedyCandidates_iff current b).mpr hh1
      have hbR : b ∈ R.openSet := by
        refine hE3 b hbcand ?_ ?_
        · rw [show (⟨s.grid, s.openSet.eraseIdx idx, s.closedSet, s.cameFrom,
            s.visited ++ [current]⟩ : GreedyState).grid = g from hg]
          exact hbok
        · rw [hcl]
          intro hmem
          exact hab (Finset.mem_singleton.mp hmem).symm
      have hbL : b ∈ L := by
        rw [ho'] at hbR
        rcases List.mem_append.mp hbR with hh | hh
        · exact absurd (hsub b hh) hbo
        · exact hh
      refine Or.inr (Or.inr ⟨hg'.trans hg, hbR, ?_, ?_⟩)
      · rw [hv']
        intro hmem
        rcases List.mem_append.mp hmem with hh | hh
        · exact hbv hh
        · rw [List.mem_singleton] at hh
          exact hcb hh.symm
      · have hcameb : R.cameFrom b = some current := (hL b hbL).2.2.2.2
        rcases hz : s.cameFrom current with _ | z
        · refine Or.inr (Or.inr (Or.inl ⟨current, hcameb, ?_, hca⟩))
          rw [hcame current hcurL]
          exact hz
        · rcases hkey current hc_mem hh1 z hz with ⟨hza, hvza⟩ |
            ⟨hzna, hzno, hzok, hzcand⟩
          · refine Or.inr (Or.inl ⟨current, hcameb, ?_, ?_, hca, hcb⟩)
            · rw [hcame current hcurL, hz, hza]
            · rw [hv', hvza]
              rfl
          · have hzR : z ∈ R.openSet := by
              refine hE3 z hzcand ?_ ?_
              · rw [show (⟨s.grid, s.openSet.eraseIdx idx, s.closedSet, s.cameFrom,
                  s.visited ++ [current]⟩ : GreedyState).grid = g from hg]
                exact hzok
              · rw [hcl]
                intro hmem
                exact hzna (Finset.mem_singleton.mp hmem)
            have hzL : z ∈ L := by
              rw [ho'] at hzR
              rcases List.mem_append.mp hzR with hh | hh
              · exact absurd (hsub z hh) hzno
              · exact hh
            refine Or.inr (Or.inr (Or.inr ⟨current, z, hcameb, ?_, ?_, hca, hzna⟩))
            · rw [hcame current hcurL]
              exact hz
            · exact (hL z hzL).2.2.2.2
    · -- the popped cell is at heuristic distance at least 2: the end stays
      -- undiscovered and the mid-run shape is preserved
      have hh2 : 2 ≤ heuristic current b := by
        have hz : heuristic current b ≠ 0 :=
          fun hh => hcb ((heuristic_eq_zero_iff _ _).mp hh)
        omega
      have hbL : b ∉ L := by
        intro hmem
        exact hh1 ((mem_greedyCandidates_iff current b).mp (hL b hmem).1)
      have hbR : b ∉ R.openSet := by
        rw [ho']
        intro hmem
        rcases List.mem_append.mp hmem with hh | hh
        · exact hbo (hsub b hh)
        · exact hbL hh
      refine Or.inr (Or.inl ⟨⟨⟨hg'.trans hg, hc'.trans hcl, ?_, ?_, ?_⟩,
        hbR, ?_, ?_, ?_⟩, ?_⟩)
      · rw [ho']
        exact hnd' hnd1
      · rw [ho']
        intro hmem
        rcases List.mem_append.mp hmem with hh | hh
        · exact hao (hsub a hh)
        · exact haL hh
      · intro p hp
        rw [ho'] at hp
        rcases List.mem_append.mp hp with hh | hh
        · exact hok p (hsub p hh)
        · exact hLg p hh
      · rw [hcame b hbL]
        exact hcfb
      · rw [hv']
        intro hmem
        rcases List.mem_append.mp hmem with hh | hh
        · exact hbv hh
        · rw [List.mem_singleton] at hh
          exact hcb hh.symm
      · intro x hx hx1 z hz
        rw [ho'] at hx
        rcases List.mem_append.mp hx with hh | hh
        · have := hmin x (hsub x hh)
          rw [hx1] at this
          omega
        · rw [(hL x hh).2.2.2.2] at hz
          simp only [Option.some_inj] at hz
          refine Or.inr ⟨?_, ?_, ?_, ?_⟩
          · rw [← hz]
            exact hca
          · rw [← hz]
            exact hcurR
          · rw [← hz]
            exact hok current hc_mem
          · rw [← hz]
            exact greedyCandidates_symm current x (hL x hh).1
      · -- clean or tainted
        rcases hphase with ⟨hvnd, hdisj⟩ | ⟨x, w, hxo, hxv, hwv, hwa, hwok, hxcw⟩
        · have hcv : current ∉ s.visited := hdisj current hc_mem
          by_cases hT : ∃ y ∈ L, y ∈ s.visited
          · obtain ⟨y, hyL, hyv⟩ := hT
            refine Or.inr ⟨y, current, ?_, ?_, ?_, hca, hok current hc_mem, (hL y hyL).1⟩
            · rw [ho']
              exact List.mem_append.mpr (Or.inr hyL)
            · rw [hv']
              exact List.mem_append.mpr (Or.inl hyv)
            · rw [hv']
              exact List.mem_append.mpr (Or.inr (List.mem_singleton.mpr rfl))
          · push_neg at hT
            refine Or.inl ⟨?_, ?_⟩
            · rw [hv']
              exact nodup_concat_of hvnd hcv
            · intro p hp
              rw [ho'] at hp
              rw [hv']
              intro hmem
              rcases List.mem_append.mp hmem with hh | hh
              · rcases List.mem_append.mp hp with hp1 | hp1
                · exact hdisj p (hsub p hp1) hh
                · exact hT p hp1 hh
              · rw [List.mem_singleton] at hh
                rcases List.mem_append.mp hp with hp1 | hp1
                · rw [hh] at hp1
                  exact hno_erase hp1
                · rw [hh] at hp1
                  exact hcurL hp1
        · by_cases hxc : x = current
          · have hwcand : w ∈ greedyCandidates current := by
              rw [← hxc]
              exact greedyCandidates_symm w x hxcw
            have hwR : w ∈ R.openSet := by
              refine hE3 w hwcand ?_ ?_
              · rw [show (⟨s.grid, s.openSet.eraseIdx idx, s.closedSet, s.cameFrom,
                  s.visited ++ [current]⟩ : GreedyState).grid = g from hg]
                exact hwok
              · rw [hcl]
                intro hmem
                exact hwa (Finset.mem_singleton.mp hmem)
            refine Or.inr ⟨w, current, hwR, ?_, ?_, hca, hok current hc_mem, hwcand⟩
            · rw [hv']
              exact List.mem_append.mpr (Or.inl hwv)
            · rw [hv']
              exact List.mem_append.mpr (Or.inr (List.mem_singleton.mpr rfl))
          · refine Or.inr ⟨x, w, ?_, ?_, ?_, hwa, hwok, hxcw⟩
            · rw [ho']
              refine List.mem_append.mpr (Or.inl ?_)
              refine mem_eraseIdx_of_ne s.openSet idx ⟨0, 0⟩ x hxo ?_
              rw [← hcur]
              exact hxc
            · rw [hv']
              exact List.mem_append.mpr (Or.inl hxv)
            · rw [hv']
              exact List.mem_append.mpr (Or.inl hwv)
  · -- final state: the popped cell can only be the end, contradicting `hcb`
    obtain ⟨_, hbo, _, _⟩ := hFin
    have := hmin b hbo
    have hbb : heuristic b b = 0 := (heuristic_eq_zero_iff b b).mpr rfl
    rw [hbb] at this
    have : heuristic current b = 0 := by omega
    exact absurd ((heuristic_eq_zero_iff _ _).mp this) hcb


/-! ## Claim C2 for greedy: the loop only ever returns duplicate-free traces -/

theorem greedyLoop_nodup (g : Grid) (a b : Pos) (rf : Nat) (hab : a ≠ b)
    (hbok : okCell g b) :
    ∀ (fuel : Nat) (s : GreedyState) (r : AlgorithmResult) (g2 : Grid),
      gInv g a b s → greedyLoop a b rf fuel s = some (r, g2) → r.visited.Nodup := by
  intro fuel
  induction fuel with
  | zero => intro s r g2 _ h; simp [greedyLoop] at h
  | succ n ih =>
    intro s r g2 hinv h
    rw [greedyLoop] at h
    rcases hq : s.openSet with _ | ⟨x0, xs⟩ <;> rw [hq] at h
    · simp only [Option.some_inj, Prod.mk.injEq] at h
      rw [← h.1]
      rcases hinv with h0 | ⟨hAB, hphase⟩ | hFin
      · obtain ⟨_, hop, _, _, _⟩ := h0
        rw [hq] at hop
        simp at hop
      · rcases hphase with hclean | htaint
        · exact hclean.1
        · obtain ⟨x, w, hxo, _⟩ := htaint
          rw [hq] at hxo
          simp at hxo
      · obtain ⟨_, hbo, _, _⟩ := hFin
        rw [hq] at hbo
        simp at hbo
    · dsimp only at h
      rw [← hq] at h
      have hne : s.openSet ≠ [] := by rw [hq]; simp
      obtain ⟨hidx, hmin⟩ :=
        minHeuristicIndex_spec (fun p => heuristic p b) s.openSet hne
      split at h
      · rename_i hcurb
        rcases hinv with h0 | ⟨hAB, hphase⟩ | hFin
        · obtain ⟨hg, hop, hcl, hvis, hcf⟩ := h0
          have hgd : s.openSet.getD
              (minHeuristicIndex (fun p => heuristic p b) s.openSet) ⟨0, 0⟩ = a := by
            rw [hop, minHeuristicIndex_single]
            rfl
          rw [hgd] at hcurb
          exact absurd hcurb hab
        · have hmem : s.openSet.getD
              (minHeuristicIndex (fun p => heuristic p b) s.openSet) ⟨0, 0⟩ ∈
              s.openSet := getD_mem _ _ _ hidx
          rw [hcurb] at hmem
          exact absurd hmem hAB.2.1
        · obtain ⟨hg, hbo, hbv, hdisj⟩ := hFin
          rcases hdisj with ⟨hcf, hvis⟩ | ⟨c, hcf, hcc, hvis, hcna, hcnb⟩ |
            ⟨c, hcf, hcc, hcna⟩ | ⟨c, z, hcf, hcc, hcz, hcna, hzna⟩
          · rcases hr : reconstructPath s.cameFrom a rf b with _ | p <;>
              rw [hr] at h
            · simp at h
            · simp only [Option.some_inj, Prod.mk.injEq] at h
              rw [← h.1]
              rw [hvis, hcurb]
              simp [hab]
          · rcases hr : reconstructPath s.cameFrom a rf b with _ | p <;>
              rw [hr] at h
            · simp at h
            · simp only [Option.some_inj, Prod.mk.injEq] at h
              rw [← h.1]
              rw [hvis, hcurb]
              simp [hab, hcnb, Ne.symm hcna]
          · rw [reconstruct_from_stuck s.cameFrom a b c hcf hcc
              (Ne.symm hab) hcna rf] at h
            simp at h
          · rw [reconstruct_from_cycle s.cameFrom a b c z hcf hcc hcz
              (Ne.symm hab) hcna hzna rf] at h
            simp at h
      · rename_i hcurb
        exact ih _ _ _ (gInv_step g a b hab hbok s
          (minHeuristicIndex (fun p => heuristic p b) s.openSet)
          (s.openSet.getD (minHeuristicIndex (fun p => heuristic p b) s.openSet)
            ⟨0, 0⟩)
          hinv hidx rfl hmin hcurb) h

/-- Claim C2: for every well-formed grid and every one of the five
strategies, the `visited` sequence of any SearchResult the strategy returns
contains no position more than once.  (greedyBestFirst need not return at
all — claim C1 — but whenever it does, its trace is duplicate-free too.) -/
theorem claim_C2_visited_nodup :
    ∀ (g : Grid) (r : AlgorithmResult) (g2 : Grid), wellFormed g →
      (bfs g = some (r, g2) → r.visited.Nodup) ∧
      (dfs g = some (r, g2) → r.visited.Nodup) ∧
      (dijkstra g = some (r, g2) → r.visited.Nodup) ∧
      (aStar g = some (r, g2) → r.visited.Nodup) ∧
      (greedyBestFirst g = some (r, g2) → r.visited.Nodup) := by
  intro g r g2 hwf
  refine ⟨?_, ?_, ?_, ?_, ?_⟩ <;> intro h
  · unfold bfs at h
    rcases hf : findStartAndEnd g with ⟨os, oe⟩
    rw [hf] at h
    rcases os with _ | s <;> rcases oe with _ | e
    · simp only [Option.some_inj, Prod.mk.injEq] at h
      rw [← h.1]
      simp
    · simp only [Option.some_inj, Prod.mk.injEq] at h
      rw [← h.1]
      simp
    · simp only [Option.some_inj, Prod.mk.injEq] at h
      rw [← h.1]
      simp
    · exact bfsLoop_nodup s e (cellCount g + 1) (cellCount g + 1) _ r g2
        ⟨by simp, by simp⟩ h
  · unfold dfs at h
    rcases hf : findStartAndEnd g with ⟨os, oe⟩
    rw [hf] at h
    rcases os with _ | s <;> rcases oe with _ | e
    · simp only [Option.some_inj, Prod.mk.injEq] at h
      rw [← h.1]
      simp
    · simp only [Option.some_inj, Prod.mk.injEq] at h
      rw [← h.1]
      simp
    · simp only [Option.some_inj, Prod.mk.injEq] at h
      rw [← h.1]
      simp
    · exact dfsLoop_nodup s e (cellCount g + 1) (cellCount g + 1) _ r g2
        ⟨by simp, by simp⟩ h
  · unfold dijkstra at h
    rcases hf : findStartAndEnd g with ⟨os, oe⟩
    rw [hf] at h
    rcases os with _ | s <;> rcases oe with _ | e
    · simp only [Option.some_inj, Prod.mk.injEq] at h
      rw [← h.1]
      simp
    · simp only [Option.some_inj, Prod.mk.injEq] at h
      rw [← h.1]
      simp
    · simp only [Option.some_inj, Prod.mk.injEq] at h
      rw [← h.1]
      simp
    · exact dijkstraLoop_nodup s e (cellCount g + 1) (cellCount g + 1) _ r g2
        ⟨by simp, by simp⟩ h
  · unfold aStar at h
    rcases hf : findStartAndEnd g with ⟨os, oe⟩
    rw [hf] at h
    rcases os with _ | s <;> rcases oe with _ | e
    · simp only [Option.some_inj, Prod.mk.injEq] at h
      rw [← h.1]
      simp
    · simp only [Option.some_inj, Prod.mk.injEq] at h
      rw [← h.1]
      simp
    · simp only [Option.some_inj, Prod.mk.injEq] at h
      rw [← h.1]
      simp
    · exact aStarLoop_nodup s e (cellCount g + 1) (cellCount g + 1) _ r g2
        ⟨by simp, by simp, by simp, by simp⟩ h
  · unfold greedyBestFirst at h
    rw [greedyFindStartEnd_eq g hwf.2.2.1] at h
    rcases hf : findStartAndEnd g with ⟨os, oe⟩
    rw [hf] at h
    rcases os with _ | s <;> rcases oe with _ | e
    · simp only [Option.some_inj, Prod.mk.injEq] at h
      rw [← h.1]
      simp
    · simp only [Option.some_inj, Prod.mk.injEq] at h
      rw [← h.1]
      simp
    · simp only [Option.some_inj, Prod.mk.injEq] at h
      rw [← h.1]
      simp
    · have hab : s ≠ e := start_ne_end g s e hf
      have htype := findStartAndEnd_end_type g e (by rw [hf])
      have hbok : okCell g e :=
        ⟨cellTypeAt_some_inGrid g e _ hwf.2.2.1 htype, by rw [htype]; rfl⟩
      exact greedyLoop_nodup g s e (cellCount g + 1) hab hbok
        ((cellCount g + 1) * (cellCount g + 1)) _ r g2
        (Or.inl ⟨rfl, rfl, rfl, rfl, fun p => rfl⟩) h

/-- Witness for C2: the 1×2 grid, Dijkstra conjunct, at its concrete result. -/
theorem claim_C2_witness :
    (wellFormed g12 ∧
      dijkstra g12 = some (⟨[⟨0, 0⟩, ⟨0, 1⟩], [⟨0, 0⟩, ⟨0, 1⟩], true⟩, g12)) ∧
    (⟨[⟨0, 0⟩, ⟨0, 1⟩], [⟨0, 0⟩, ⟨0, 1⟩], true⟩ :
      AlgorithmResult).visited.Nodup :=
  ⟨⟨by decide, by decide⟩,
    (claim_C2_visited_nodup g12 ⟨[⟨0, 0⟩, ⟨0, 1⟩], [⟨0, 0⟩, ⟨0, 1⟩], true⟩ g12
      (by decide)).2.2.1 (by decide)⟩
